import Mathlib

/-!
Verification development for the deferred-execution partition layer
(src/modin/core/execution/ray/implementations/pandas_on_ray/partitioning/partition.py)
and the HDK column-name / lazy-categorical utilities
(src/modin/experimental/core/execution/native/implementations/hdk_on_native/dataframe/utils.py).

The partition wrapper is embedded from the source.  The DeferredExecution /
MetaList / remote_exec_func module it imports is not part of the repository
snapshot, so those operations are modelled from the spec (sections 2-4 of
spec.md); every such definition is marked in its doc comment.
-/

namespace ModinSpec

/-- A materialized block held by the remote backend.  The tabular semantics are
out of scope for the spec, so a block is abstracted to an opaque payload plus
the three observable metadata facts: row count, column count, worker location. -/
structure Value where
  payload : Int
  nrows : Int
  ncols : Int
  loc : String

/-- An opaque transformation on materialized blocks (spec section 6, Tabular
Data interface).  Positional and keyword arguments of the Python call are
folded into the function itself; consequently all modelled argument lists are
flat (contain no nested handles or nodes), which is the case every claim
exercises. -/
abbrev Fn := Value → Value

/-- A value stored in the Remote Executor object store: either a materialized
block, or a scalar (int / string) produced by a metadata-returning remote
call.  A Handle is an index into the store. -/
inductive SVal
  | df (v : Value)
  | int (n : Int)
  | str (s : String)

/-- Handles are indices into the executor store. -/
abbrev Handle := Nat

/-- A slot of the Metadata Slot Array (MetaList).  Mirrors the duck typing of
the source: a slot holds None, a materialized int, a materialized string, or
an ObjectIDType reference into the store. -/
inductive MetaVal
  | none
  | intVal (n : Int)
  | strVal (s : String)
  | ref (h : Handle)
deriving DecidableEq

/-- Whether a slot value is an ObjectIDType reference (the
isinstance(x, ObjectIDType) test of the source). -/
def MetaVal.isRef : MetaVal → Bool
  | .ref _ => true
  | _ => false

/-- The data field of a partition: either a resolved remote handle or a
reference to a DeferredExecution node (arena index). -/
inductive PData
  | ref (h : Handle)
  | de (id : Nat)
deriving DecidableEq

/-- Modelled from the spec: a Deferred Computation Node (spec section 3 and
4.2).  The source is a handle or another node, the function is the deferred
transformation, refs is the manual reference count, and result memoizes the
outcome of the single submission (data handle, meta list id, meta offset). -/
structure DeNode where
  src : Sum Handle Nat
  func : Fn
  refs : Int
  result : Option (Handle × Nat × Nat)

/-- The world: the Remote Executor store and call counter (spec section 6),
the arena of Deferred Computation Nodes, the arena of Metadata Slot Arrays,
and the global lazy-execution toggle read by apply. -/
structure World where
  store : List SVal
  calls : Nat
  nodes : List DeNode
  metas : List (List MetaVal)
  lazyMode : Bool

/-- A partition: wraps the data reference, plus shared ownership of a
Metadata Slot Array (arena index) and the integer offset into it. -/
structure Partition where
  dataRef : PData
  meta : Nat
  metaOffset : Nat
deriving DecidableEq

/-- MetaList indexing with Python semantics: a negative index counts from the
end of the list. -/
def metaIndex (len : Nat) (i : Int) : Option Nat :=
  if i < 0 then
    (if i.natAbs ≤ len then some (len - i.natAbs) else Option.none)
  else
    (if i.toNat < len then some i.toNat else Option.none)

/-- Read a MetaList slot (Python getitem, negative indices allowed). -/
def metaListGet (l : List MetaVal) (i : Int) : Option MetaVal :=
  (metaIndex l.length i).bind (fun j => l[j]?)

/-- Write a MetaList slot in place (Python setitem, negative indices allowed). -/
def metaListSet (l : List MetaVal) (i : Int) (v : MetaVal) : List MetaVal :=
  match metaIndex l.length i with
  | some j => l.set j v
  | Option.none => l

/-- Read slot i of the meta list owned by partition p. -/
def World.metaGet (w : World) (p : Partition) (i : Int) : Option MetaVal :=
  (w.metas[p.meta]?).bind (fun l => metaListGet l i)

/-- Write slot i of the meta list owned by partition p; the mutation is
visible through every partition sharing the arena entry. -/
def World.metaSet (w : World) (p : Partition) (i : Int) (v : MetaVal) : World :=
  match w.metas[p.meta]? with
  | some l => { w with metas := w.metas.set p.meta (metaListSet l i v) }
  | Option.none => w

/-- The length cache: meta at the partition offset (source property at
lines 355-361). -/
def lengthCache (w : World) (p : Partition) : Option MetaVal :=
  w.metaGet p (Int.ofNat p.metaOffset)

/-- Setter of the length cache. -/
def setLengthCache (w : World) (p : Partition) (v : MetaVal) : World :=
  w.metaSet p (Int.ofNat p.metaOffset) v

/-- The width cache: meta at offset + 1 (source lines 363-369). -/
def widthCache (w : World) (p : Partition) : Option MetaVal :=
  w.metaGet p (Int.ofNat (p.metaOffset + 1))

/-- Setter of the width cache. -/
def setWidthCache (w : World) (p : Partition) (v : MetaVal) : World :=
  w.metaSet p (Int.ofNat (p.metaOffset + 1)) v

/-- The worker-location cache: the last slot of the shared meta list, index
-1 (source lines 371-377). -/
def ipCache (w : World) (p : Partition) : Option MetaVal :=
  w.metaGet p (-1)

/-- Setter of the location cache. -/
def setIpCache (w : World) (p : Partition) (v : MetaVal) : World :=
  w.metaSet p (-1) v

/-- Adjust the reference count of node id by d (DeferredExecution.ref_count,
modelled from the spec). -/
def bumpRef (w : World) (id : Nat) (d : Int) : World :=
  match w.nodes[id]? with
  | some nd => { w with nodes := w.nodes.set id { nd with refs := nd.refs + d } }
  | Option.none => w

/-- Increment the node reference count when the wrapped data is a
DeferredExecution (source lines 74-75). -/
def incIfDe (w : World) (d : PData) : World :=
  match d with
  | .de id => bumpRef w id 1
  | .ref _ => w

/-- Partition construction, no meta given (source lines 64-87, meta is None
branch): a fresh three-slot MetaList holding length, width and ip. -/
def mkPartDims (w : World) (d : PData) (len wid ipv : MetaVal) : World × Partition :=
  let w1 := incIfDe w d
  ({ w1 with metas := w1.metas ++ [[len, wid, ipv]] },
   { dataRef := d, meta := w1.metas.length, metaOffset := 0 })

/-- Partition construction with an explicit shared meta list and offset
(source lines 64-87, meta given branch). -/
def mkPartMeta (w : World) (d : PData) (mid off : Nat) : World × Partition :=
  (incIfDe w d, { dataRef := d, meta := mid, metaOffset := off })

/-- Partition destructor (source lines 99-102): decrement the node reference
count when the data reference still is a DeferredExecution. -/
def delPart (w : World) (p : Partition) : World :=
  match p.dataRef with
  | .de id => bumpRef w id (-1)
  | .ref _ => w

/-- Partition copy (source lines 183-196): a new partition over the same data
reference, sharing the meta list and offset; the constructor increments the
node reference count when the data is deferred. -/
def copyPart (w : World) (p : Partition) : World × Partition :=
  mkPartMeta w p.dataRef p.meta p.metaOffset

/-- Modelled from the spec: the flat eager fast path remote_exec_func
(spec section 4.1 case a): one Remote Executor call applying the function to
the block behind the handle, returning the new handle together with the
freshly produced metadata of the result. -/
def remoteExecFunc (w : World) (f : Fn) (h : Handle) :
    Option (World × Handle × MetaVal × MetaVal × MetaVal) :=
  match w.store[h]? with
  | some (.df v) =>
    let v' := f v
    some ({ w with store := w.store ++ [.df v'], calls := w.calls + 1 },
          w.store.length, .intVal v'.nrows, .intVal v'.ncols, .strVal v'.loc)
  | _ => Option.none

/-- Modelled from the spec: DeferredExecution.exec (spec sections 3, 4.2).
A node already submitted returns its memoized outcome without a new call;
otherwise the source chain is resolved first, the function is submitted to
the Remote Executor exactly once, the result handle and a fresh metadata
list are memoized in the node.  Fuel bounds the chain depth; a node id always
exceeds the ids of its sources, so fuel id + 1 suffices. -/
def execNode : Nat → World → Nat → Option (World × Handle × Nat × Nat)
  | 0, _, _ => Option.none
  | fuel + 1, w, id =>
    match w.nodes[id]? with
    | Option.none => Option.none
    | some nd =>
      match nd.result with
      | some (h, m, o) => some (w, h, m, o)
      | Option.none =>
        let srcRes : Option (World × Handle) :=
          match nd.src with
          | .inl h => some (w, h)
          | .inr j => (execNode fuel w j).map (fun r => (r.1, r.2.1))
        match srcRes with
        | Option.none => Option.none
        | some (w1, hs) =>
          match w1.store[hs]? with
          | some (.df v) =>
            match w1.nodes[id]? with
            | some nd1 =>
              let v' := nd1.func v
              let h' := w1.store.length
              let mid := w1.metas.length
              some ({ w1 with
                        store := w1.store ++ [.df v'],
                        calls := w1.calls + 1,
                        metas := w1.metas ++
                          [[.intVal v'.nrows, .intVal v'.ncols, .strVal v'.loc]],
                        nodes := w1.nodes.set id { nd1 with result := some (h', mid, 0) } },
                    h', mid, 0)
            | Option.none => Option.none
          | _ => Option.none

/-- drain_call_queue (source lines 158-176): a resolved partition is left
untouched; a deferred one executes its node, replaces data, meta list and
offset with the values returned by exec, and decrements the drained node's
reference count. -/
def drainPart (w : World) (p : Partition) : Option (World × Partition) :=
  match p.dataRef with
  | .ref _ => some (w, p)
  | .de id =>
    match execNode (id + 1) w id with
    | Option.none => Option.none
    | some (w1, h, mid, off) =>
      some (bumpRef w1 id (-1),
            { dataRef := .ref h, meta := mid, metaOffset := off })

/-- The source of a new DeferredExecution built over the current data of a
partition. -/
def srcOf : PData → Sum Handle Nat
  | .ref h => .inl h
  | .de id => .inr id

/-- apply (source lines 104-148).  Lazy mode: wrap a fresh node, no executor
interaction.  Eager mode over a resolved handle with flat arguments: the
direct remote_exec_func fast path.  Eager over a deferred node: build a
one-step node, increment its count, execute it, wrap the resolved result
with the returned meta list and offset. -/
def applyPart (w : World) (p : Partition) (f : Fn) : Option (World × Partition) :=
  if w.lazyMode then
    let nid := w.nodes.length
    let w1 := { w with nodes := w.nodes ++ [⟨srcOf p.dataRef, f, 0, Option.none⟩] }
    some (mkPartDims w1 (.de nid) .none .none .none)
  else
    match p.dataRef with
    | .ref h =>
      match remoteExecFunc w f h with
      | Option.none => Option.none
      | some (w1, h', lv, wv, iv) => some (mkPartDims w1 (.ref h') lv wv iv)
    | .de id =>
      let nid := w.nodes.length
      let w1 := { w with nodes := w.nodes ++ [⟨Sum.inr id, f, 0, Option.none⟩] }
      let w2 := bumpRef w1 nid 1
      match execNode (nid + 1) w2 nid with
      | Option.none => Option.none
      | some (w3, h', mid, off) => some (mkPartMeta w3 (.ref h') mid off)

/-- add_to_apply_calls (source lines 150-156): always builds a deferred node
over the current data, regardless of the execution mode, with the
caller-asserted dimensions as the fresh meta list. -/
def addToApplyCalls (w : World) (p : Partition) (f : Fn) (len wid : MetaVal) :
    World × Partition :=
  let nid := w.nodes.length
  let w1 := { w with nodes := w.nodes ++ [⟨srcOf p.dataRef, f, 0, Option.none⟩] }
  mkPartDims w1 (.de nid) len wid .none

/-- put (source lines 240-255): store the materialized block and wrap it with
immediately known dimensions.  Storing is not an executor submission, so the
call counter is untouched. -/
def putPart (w : World) (v : Value) : World × Partition :=
  let h := w.store.length
  let w1 := { w with store := w.store ++ [.df v] }
  mkPartDims w1 (.ref h) (.intVal v.nrows) (.intVal v.ncols) .none

/-- Row or column label argument of mask: the full slice, a non-trivial
slice, or an explicit label list. -/
inductive Labels
  | sliceAll
  | sliceRange (start stop : Int)
  | labelList (ls : List Int)
deriving DecidableEq

/-- Whether the labels are a slice (isinstance(x, slice) in the source). -/
def Labels.isSlice : Labels → Bool
  | .sliceAll => true
  | .sliceRange _ _ => true
  | .labelList _ => false

/-- Modelled from the spec: the tabular slicing operation dispatched by mask,
opaque to this layer; only the metadata handling of mask matters here. -/
def maskSelect (rl cl : Labels) : Fn :=
  fun v =>
    { v with
        nrows := match rl with
          | .labelList ls => Int.ofNat ls.length
          | _ => v.nrows,
        ncols := match cl with
          | .labelList ls => Int.ofNat ls.length
          | _ => v.ncols }

/-- Modelled from the spec: the cache recomputation rule of the base-class
mask (spec section 4.1): an explicit list has a known length, a full-range
slice aliases the previous cache directly, anything else is unknown. -/
def tryRecomputeCache (ls : Labels) (prev : Option MetaVal) : MetaVal :=
  match ls with
  | .labelList l => .intVal (Int.ofNat l.length)
  | .sliceAll => prev.getD .none
  | .sliceRange _ _ => .none

/-- Modelled from the spec: the base-class mask called by super().mask at
line 216: queue the slicing call, then install the recomputed row and column
caches into the fresh meta list of the new partition. -/
def superMask (w : World) (p : Partition) (rl cl : Labels) : World × Partition :=
  let wp := addToApplyCalls w p (maskSelect rl cl) .none .none
  let w1 := setLengthCache wp.1 wp.2 (tryRecomputeCache rl (lengthCache w p))
  let w2 := setWidthCache w1 wp.2 (tryRecomputeCache cl (widthCache w p))
  (w2, wp.2)

/-- Modelled from the spec: compute_sliced_len, the lightweight remote helper
computing the length of a sliced axis from the slice parameters and the
cached length handle. -/
def computeSlicedLen (start stop len : Int) : Int :=
  max 0 (min stop len - max start 0)

/-- Dispatch of compute_sliced_len.remote: a new executor call whose result
handle is stored as the fresh cache value. -/
def remoteSlicedLen (w : World) (start stop : Int) (h : Handle) :
    World × MetaVal :=
  match w.store[h]? with
  | some (.int len) =>
    ({ w with store := w.store ++ [.int (computeSlicedLen start stop len)],
              calls := w.calls + 1 },
     .ref w.store.length)
  | _ => (w, .none)

/-- mask (source lines 198-238): the base mask produces the new partition,
then for slice labels whose source cache is an unmaterialized ObjectIDType
reference the cache is either aliased directly (full slice fast path) or
recomputed by the remote helper. -/
def maskPart (w : World) (p : Partition) (rl cl : Labels) : World × Partition :=
  let wp := superMask w p rl cl
  let w1 := wp.1
  let newObj := wp.2
  let stepRow : World :=
    if rl.isSlice && ((lengthCache w p).getD .none).isRef then
      match rl with
      | .sliceAll => setLengthCache w1 newObj ((lengthCache w p).getD .none)
      | .sliceRange a b =>
        match (lengthCache w p).getD .none with
        | .ref h =>
          let wr := remoteSlicedLen w1 a b h
          setLengthCache wr.1 newObj wr.2
        | _ => w1
      | .labelList _ => w1
    else w1
  let stepCol : World :=
    if cl.isSlice && ((widthCache w p).getD .none).isRef then
      match cl with
      | .sliceAll => setWidthCache stepRow newObj ((widthCache w p).getD .none)
      | .sliceRange a b =>
        match (widthCache w p).getD .none with
        | .ref h =>
          let wr := remoteSlicedLen stepRow a b h
          setWidthCache wr.1 newObj wr.2
        | _ => stepRow
      | .labelList _ => stepRow
    else stepRow
  (stepCol, newObj)

/-- materialize of a handle (RayWrapper.materialize, spec section 6). -/
def materializeHandle (w : World) (h : Handle) : Option SVal :=
  w.store[h]?

/-- ip (source lines 328-348).  The cache is read once; when absent the call
queue is drained, but the returned value is the one read before the drain --
the source does not re-read the slot after drain_call_queue, unlike length
and width.  The result triple is the post-call world, the partition with its
possibly replaced meta, and the returned value. -/
def ipPart (w : World) (p : Partition) (materialize : Bool) :
    Option (World × Partition × MetaVal) :=
  match ipCache w p with
  | Option.none => Option.none
  | some ip0 =>
    match (if ip0 = .none then drainPart w p else some (w, p)) with
    | Option.none => Option.none
    | some (w1, p1) =>
      if materialize ∧ ip0.isRef then
        match ip0 with
        | .ref h =>
          match materializeHandle w1 h with
          | some (.str s) => some (setIpCache w1 p1 (.strVal s), p1, .strVal s)
          | _ => Option.none
        | _ => Option.none
      else
        some (w1, p1, ip0)

/-- Lifecycle events over one Deferred Computation Node (arena id k):
construction of a new partition wrapping the node, copying an existing
partition, draining, and destruction (spec section 8, reference-count
balance). -/
inductive Ev
  | create
  | copy (i : Nat)
  | drain (i : Nat)
  | destroy (i : Nat)

/-- The partition population of an event run: destroyed slots become none. -/
abbrev Parts := List (Option Partition)

/-- One lifecycle event step.  create and copy call the partition
constructor (incrementing the node count when the data is deferred), drain
is drain_call_queue, destroy is the destructor.  Events naming a dead or
missing slot are skipped. -/
def evStep (k : Nat) (s : World × Parts) : Ev → Option (World × Parts)
  | .create =>
    let wp := mkPartDims s.1 (.de k) .none .none .none
    some (wp.1, s.2 ++ [some wp.2])
  | .copy i =>
    match s.2[i]? with
    | some (some p) =>
      let wp := copyPart s.1 p
      some (wp.1, s.2 ++ [some wp.2])
    | _ => some s
  | .drain i =>
    match s.2[i]? with
    | some (some p) =>
      match drainPart s.1 p with
      | Option.none => Option.none
      | some (w1, p1) => some (w1, s.2.set i (some p1))
    | _ => some s
  | .destroy i =>
    match s.2[i]? with
    | some (some p) => some (delPart s.1 p, s.2.set i Option.none)
    | _ => some s

/-- Run a sequence of lifecycle events. -/
def runEvents (k : Nat) (s : World × Parts) (evs : List Ev) :
    Option (World × Parts) :=
  evs.foldlM (evStep k) s

/-- Whether a population slot holds a live partition whose unresolved data
is node k. -/
def countsRef (k : Nat) : Option Partition → Bool
  | some p => decide (p.dataRef = .de k)
  | Option.none => false

/-- Number of live partitions whose unresolved data is node k. -/
def liveRefs (k : Nat) (ps : Parts) : Nat :=
  ps.countP (countsRef k)

/-- Reference count of node k in the world (0 when the node is absent). -/
def nodeRefs (w : World) (k : Nat) : Int :=
  match w.nodes[k]? with
  | some nd => nd.refs
  | Option.none => 0

/-- Memoized submission state of node k. -/
def nodeResult (w : World) (k : Nat) : Option (Handle × Nat × Nat) :=
  match w.nodes[k]? with
  | some nd => nd.result
  | Option.none => Option.none

/-! ## Lazy categorical proxy (utils.py lines 219-239) -/

/-- A stand-in for an external pyarrow table; only identity matters to this
layer. -/
structure PyarrowTable where
  tableId : Nat
deriving DecidableEq

/-- The state stored by LazyProxyCategoricalDtype.__init__. -/
structure LazyProxyCategoricalDtype where
  table : Option PyarrowTable
  columnName : List Nat
  ordered : Bool
  lazyCategories : Option (List Nat)
deriving DecidableEq

/-- Modelled from the spec: ErrorMessage.catch_bugs_and_request_email (the
modin.error_message module is not in the snapshot) -- raise an internal-bug
diagnostic immediately when the failure condition holds (spec section 7,
fail-fast invariant violations). -/
def catchBugsAndRequestEmail (failureCondition : Bool) (extraLog : List Nat) :
    Except (List Nat) Unit :=
  if failureCondition then Except.error extraLog else Except.ok ()

/-- The diagnostic text of the null-table check, as UTF-8 bytes. -/
def nullTableLog : List Nat := [110, 117, 108, 108]

/-- LazyProxyCategoricalDtype.__init__ (source lines 231-239): fail fast when
the backing table is None, otherwise store the table and column name with
ordered = False and no materialized categories yet. -/
def lazyProxyInit (table : Option PyarrowTable) (columnName : List Nat) :
    Except (List Nat) LazyProxyCategoricalDtype :=
  match catchBugsAndRequestEmail (table = Option.none) nullTableLog with
  | Except.error e => Except.error e
  | Except.ok _ =>
    Except.ok { table := table, columnName := columnName, ordered := false,
                lazyCategories := Option.none }

/-! ## Column-name codec (utils.py lines 27-216)

Python strings are represented by their UTF-8 byte sequences (List Nat, each
byte below 256).  The non-alphanumeric character class of the source regex
coincides with the non-alphanumeric byte class on UTF-8 data: every
multi-byte character consists solely of bytes at or above 128, which are
non-alphanumeric, so maximal character runs and maximal byte runs agree, and
the encode("UTF-8") inside the quoter becomes the identity. -/

/-- The supported column names: the float and Timestamp alternatives of the
source type hint are floating-point based and are not modelled. -/
inductive ColName
  | noneV
  | intV (n : Int)
  | strV (s : List Nat)
  | tup (es : List ColName)

/-- IDX_COL_NAME, the bytes of the string quoted in utils.py line 27. -/
def IDX_COL_NAME : List Nat := [95, 95, 105, 110, 100, 101, 120, 95, 95]

/-- ROWID_COL_NAME, the bytes of the string quoted in utils.py line 28. -/
def ROWID_COL_NAME : List Nat := [95, 95, 114, 111, 119, 105, 100, 95, 95]

/-- Modelled from the spec: MODIN_UNNAMED_SERIES_LABEL is imported from
modin.utils, which is not in the snapshot; its value in this code base is
the string of these bytes. -/
def MODIN_UNNAMED_SERIES_LABEL : List Nat :=
  [95, 95, 114, 101, 100, 117, 99, 101, 100, 95, 95]

/-- A byte matching the [a-zA-Z0-9] class of _NON_ALPHANUM_PATTERN. -/
def isAlphanumByte (b : Nat) : Bool :=
  (48 ≤ b && b ≤ 57) || (65 ≤ b && b ≤ 90) || (97 ≤ b && b ≤ 122)

/-- A byte allowed by the encode contract: alphanumeric or underscore. -/
def isWordByte (b : Nat) : Bool :=
  isAlphanumByte b || b = 95

/-- Python startswith on byte strings. -/
def pyStartsWith : List Nat → List Nat → Bool
  | [], _ => true
  | _ :: _, [] => false
  | p :: ps, s :: ss => if p = s then pyStartsWith ps ss else false

/-- Membership of _RESERVED_NAMES together with the IDX_COL_NAME prefix test
(utils.py line 93 and lines 128-130 share this condition). -/
def isReservedStr (s : List Nat) : Bool :=
  pyStartsWith IDX_COL_NAME s ||
    (decide (s = MODIN_UNNAMED_SERIES_LABEL) || decide (s = ROWID_COL_NAME))

/-- ASCII decimal digits of a natural number (str of a nonnegative int). -/
def natDigits (n : Nat) : List Nat :=
  if n < 10 then [48 + n] else natDigits (n / 10) ++ [48 + n % 10]
termination_by n
decreasing_by
  exact Nat.div_lt_self (by omega) (by omega)

/-- Python str of an int: optional minus sign then the decimal digits. -/
def intRepr (n : Int) : List Nat :=
  if n < 0 then 45 :: natDigits n.natAbs else natDigits n.toNat

/-- The extended base64 alphabet _BASE_LIST of utils.py lines 31-32:
uppercase, lowercase, digits, then the two-character codes for 62 and 63. -/
def baseEnc (i : Nat) : List Nat :=
  if i < 26 then [65 + i]
  else if i < 52 then [97 + (i - 26)]
  else if i < 62 then [48 + (i - 52)]
  else if i = 62 then [95, 65]
  else [95, 66]

/-- The chunk loop of _quote (utils.py lines 170-181): 3 bytes are packed
into a 24-bit integer and emitted as four 6-bit units; a short final chunk
emits one unit more than its byte count.  The bit operations of the source
are written with / , % and * (identical on bytes).  Returns the emitted
units and the byte count of the final chunk. -/
def quoteChunks : List Nat → List Nat × Nat
  | [] => ([], 0)
  | [b0] =>
    let n := b0 * 65536
    (baseEnc (n / 262144 % 64) ++ baseEnc (n / 4096 % 64), 1)
  | [b0, b1] =>
    let n := b0 * 65536 + b1 * 256
    (baseEnc (n / 262144 % 64) ++ baseEnc (n / 4096 % 64) ++ baseEnc (n / 64 % 64), 2)
  | b0 :: b1 :: b2 :: rest =>
    let n := b0 * 65536 + b1 * 256 + b2
    let units := baseEnc (n / 262144 % 64) ++ baseEnc (n / 4096 % 64) ++
      baseEnc (n / 64 % 64) ++ baseEnc (n % 64)
    match rest with
    | [] => (units, 3)
    | _ :: _ =>
      let r := quoteChunks rest
      (units ++ r.1, r.2)

/-- _quote (utils.py lines 162-182): the _Q marker, the encoded units, then
an underscore and the final chunk byte count. -/
def quoteRun (bytes : List Nat) : List Nat :=
  [95, 81] ++ (quoteChunks bytes).1 ++ [95, 48 + (quoteChunks bytes).2]

/-- The encoding loop of encode_col_name over a non-reserved string
(utils.py lines 96-111): alphanumeric bytes pass through, every maximal
non-alphanumeric run is quoted. -/
def encodeRuns : List Nat → List Nat
  | [] => []
  | b :: bs =>
    if isAlphanumByte b then b :: encodeRuns bs
    else
      quoteRun ((b :: bs).takeWhile (fun c => !isAlphanumByte c)) ++
        encodeRuns ((b :: bs).dropWhile (fun c => !isAlphanumByte c))
termination_by s => s.length
decreasing_by
  all_goals
    first
    | (simp only [List.length_cons]; omega)
    | (have hle : ∀ (l : List Nat),
          (l.dropWhile (fun c => !isAlphanumByte c)).length ≤ l.length := by
        intro l
        induction l with
        | nil => simp [List.dropWhile]
        | cons x xs ih =>
          rw [List.dropWhile_cons]
          split
          next => exact Nat.le_succ_of_le ih
          next => simp
       simp only [List.dropWhile_cons, List.length_cons]
       simp_all
       exact Nat.lt_succ_of_le (hle _))

mutual

/-- encode_col_name (utils.py lines 46-111) over the modelled name type;
ignoreReserved is the ignore_reserved parameter. -/
def encode_col_name (ignoreReserved : Bool) : ColName → List Nat
  | .noneV => [95, 78]
  | .intV n => [95, 73] ++ intRepr n
  | .tup es => [95, 84] ++ encodeTupleParts es
  | .strV s =>
    if s = [] then [95, 69]
    else if ignoreReserved && isReservedStr s then s
    else encodeRuns s

/-- The element loop of the tuple branch (utils.py lines 82-90): encoded
elements joined by the _S separator; the elements are encoded with the
default ignore_reserved = True of the inner call at line 86. -/
def encodeTupleParts : List ColName → List Nat
  | [] => []
  | [e] => encode_col_name true e
  | e :: e2 :: es =>
    encode_col_name true e ++ [95, 83] ++ encodeTupleParts (e2 :: es)
end

/-- The inverse of the single-unit alphabet lookup _BASE_DICT. -/
def baseDec (c : Nat) : Option Nat :=
  if 65 ≤ c && c ≤ 90 then some (c - 65)
  else if 97 ≤ c && c ≤ 122 then some (c - 97 + 26)
  else if 48 ≤ c && c ≤ 57 then some (c - 48 + 52)
  else Option.none

/-- A token of the quoted stream: a 6-bit unit, or the tail marker carrying
the number of bytes still to emit (the _TAIL_LEN lookup of utils.py line 36,
with the nbytes = 0 if tail == 3 collapse of line 205 applied). -/
inductive UnitTok
  | unit (v : Nat)
  | tl (nb : Nat)

/-- Read one token: an underscore starts a two-character code (_0 to _3 are
tail markers, _A and _B are units 62 and 63), anything else is a one
character unit; unknown characters fail like the dictionary lookups of the
source. -/
def readUnit : List Nat → Option (UnitTok × List Nat)
  | [] => Option.none
  | c :: rest =>
    if c = 95 then
      match rest with
      | [] => Option.none
      | d :: rest2 =>
        if d = 48 then some (.tl 0, rest2)
        else if d = 49 then some (.tl 1, rest2)
        else if d = 50 then some (.tl 2, rest2)
        else if d = 51 then some (.tl 0, rest2)
        else if d = 65 then some (.unit 62, rest2)
        else if d = 66 then some (.unit 63, rest2)
        else Option.none
    else
      match baseDec c with
      | some v => some (.unit v, rest)
      | Option.none => Option.none

/-- One iteration of the while loop of _unquote (utils.py lines 191-209):
up to four units are accumulated into a 24-bit integer; a tail marker stops
the scan and fixes the byte count of the final chunk. -/
def readChunk (s : List Nat) : Option (Nat × Nat × Bool × List Nat) :=
  match readUnit s with
  | Option.none => Option.none
  | some (.tl nb, r0) => some (0, nb, true, r0)
  | some (.unit v0, r0) =>
    match readUnit r0 with
    | Option.none => Option.none
    | some (.tl nb, r1) => some (v0 * 262144, nb, true, r1)
    | some (.unit v1, r1) =>
      match readUnit r1 with
      | Option.none => Option.none
      | some (.tl nb, r2) => some (v0 * 262144 + v1 * 4096, nb, true, r2)
      | some (.unit v2, r2) =>
        match readUnit r2 with
        | Option.none => Option.none
        | some (.tl nb, r3) => some (v0 * 262144 + v1 * 4096 + v2 * 64, nb, true, r3)
        | some (.unit v3, r3) =>
          some (v0 * 262144 + v1 * 4096 + v2 * 64 + v3, 3, false, r3)

/-- The bytes emitted for one chunk (utils.py lines 211-212). -/
def bytesOfN (n nb : Nat) : List Nat :=
  (List.range nb).map (fun i => n / 2 ^ (8 * (2 - i)) % 256)

/-- The full chunk loop of _unquote; the fuel bounds the number of chunks
(each consumes at least two characters).  Returns the decoded bytes and the
remainder of the stream after the tail marker. -/
def unquoteLoop : Nat → List Nat → Option (List Nat × List Nat)
  | 0, _ => Option.none
  | fuel + 1, s =>
    match readChunk s with
    | Option.none => Option.none
    | some (n, nb, true, rest) => some (bytesOfN n nb, rest)
    | some (n, _, false, rest) =>
      match unquoteLoop fuel rest with
      | Option.none => Option.none
      | some (bs, r) => some (bytesOfN n 3 ++ bs, r)

/-- _unquote (utils.py lines 185-216): assert the _Q marker, then run the
chunk loop; the UTF-8 decode of the raw bytes is the identity in the byte
representation. -/
def unquoteRun : List Nat → Option (List Nat × List Nat)
  | 95 :: 81 :: body => unquoteLoop (body.length + 1) body
  | _ => Option.none

/-- Split at the first occurrence of the two-byte pattern x y (str.find of
the source): the prefix before the occurrence and the suffix starting at
it. -/
def splitFirstPair (x y : Nat) : List Nat → Option (List Nat × List Nat)
  | [] => Option.none
  | [_] => Option.none
  | a :: b :: rest =>
    if a = x ∧ b = y then some ([], a :: b :: rest)
    else
      match splitFirstPair x y (b :: rest) with
      | Option.none => Option.none
      | some (pre, suf) => some (a :: pre, suf)

/-- Whether the two-byte pattern x y occurs in the list. -/
def hasPair (x y : Nat) : List Nat → Bool
  | [] => false
  | [_] => false
  | a :: b :: rest => (decide (a = x) && decide (b = y)) || hasPair x y (b :: rest)

/-- The find and unquote loop of decode_col_name (utils.py lines 147-159):
plain text before the first _Q passes through, the quoted block is decoded,
and the remainder is processed the same way. -/
def decodeRuns : Nat → List Nat → Option (List Nat)
  | 0, _ => Option.none
  | fuel + 1, s =>
    match splitFirstPair 95 81 s with
    | Option.none => some s
    | some (pre, qs) =>
      match unquoteRun qs with
      | Option.none => Option.none
      | some (bs, rest) =>
        match decodeRuns fuel rest with
        | Option.none => Option.none
        | some ds => some (pre ++ bs ++ ds)

/-- Python split on the _S separator (utils.py line 142). -/
def splitOnSep : Nat → List Nat → List (List Nat)
  | 0, s => [s]
  | fuel + 1, s =>
    match splitFirstPair 95 83 s with
    | Option.none => [s]
    | some (pre, suf) => pre :: splitOnSep fuel (suf.drop 2)

/-- Digit value of an ASCII byte. -/
def digitVal (c : Nat) : Option Nat :=
  if 48 ≤ c && c ≤ 57 then some (c - 48) else Option.none

/-- Accumulating decimal parser. -/
def parseNatAux (acc : Nat) : List Nat → Option Nat
  | [] => some acc
  | c :: cs =>
    match digitVal c with
    | some d => parseNatAux (acc * 10 + d) cs
    | Option.none => Option.none

/-- Parse a nonempty digit string. -/
def parseNatBytes : List Nat → Option Nat
  | [] => Option.none
  | l => parseNatAux 0 l

/-- Python int() restricted to the strings str emits: optional minus sign
then decimal digits. -/
def parseIntBytes : List Nat → Option Int
  | [] => Option.none
  | c :: ds =>
    if c = 45 then (parseNatBytes ds).map (fun n => -(Int.ofNat n))
    else (parseNatBytes (c :: ds)).map Int.ofNat

/-- decode_col_name (utils.py lines 114-159).  The float (_F) and Timestamp
(_D) branches are floating-point based and are not modelled; no modelled
encoding produces them.  Failure stands for the exceptions the source can
raise (IndexError on a lone underscore, parse errors).  The fuel bounds the
tuple nesting. -/
def decode_col_name : Nat → List Nat → Option ColName
  | 0, _ => Option.none
  | fuel + 1, s =>
    match s with
    | [] => Option.map ColName.strV (decodeRuns (s.length + 1) s)
    | b :: rest =>
      if b = 95 then
        if isReservedStr s then some (.strV s)
        else
          match rest with
          | [] => Option.none
          | c :: restAll =>
            if c = 78 then some .noneV
            else if c = 73 then (parseIntBytes restAll).map ColName.intV
            else if c = 70 then Option.none
            else if c = 68 then Option.none
            else if c = 84 then
              Option.map ColName.tup
                ((splitOnSep (s.length + 1) restAll).mapM
                  (fun part => decode_col_name fuel part))
            else if c = 69 then some (.strV [])
            else Option.map ColName.strV (decodeRuns (s.length + 1) s)
      else Option.map ColName.strV (decodeRuns (s.length + 1) s)

/-- Top-level decode with canonical fuel. -/
def decodeColName (s : List Nat) : Option ColName :=
  decode_col_name (s.length + 1) s

/-- Elements admissible inside a tuple name: scalars whose bytes fit in a
byte string, where a reserved (pass-through) string must not contain the _S
separator pattern, since the tuple decoder splits on it. -/
def goodScalar : ColName → Bool
  | .noneV => true
  | .intV _ => true
  | .strV s => s.all (fun b => b < 256) &&
      (!(isReservedStr s) || !(hasPair 95 83 s))
  | .tup _ => false

/-- Names for which the codec round-trips: scalars with valid bytes, or
nonempty tuples of admissible scalars. -/
def goodName : ColName → Bool
  | .noneV => true
  | .intV _ => true
  | .strV s => s.all (fun b => b < 256)
  | .tup es => !es.isEmpty && es.all goodScalar

/-- Scalars whose encoding stays within alphanumeric and underscore bytes:
nonnegative ints (the minus sign escapes the contract), and strings whose
reserved pass-through form is itself made of word bytes. -/
def charsetScalar : ColName → Bool
  | .noneV => true
  | .intV n => decide (0 ≤ n)
  | .strV s => !(isReservedStr s) || s.all isWordByte
  | .tup _ => false

/-- Names whose encoding stays within alphanumeric and underscore bytes. -/
def charsetSafe : ColName → Bool
  | .tup es => es.all charsetScalar
  | c => charsetScalar c

/-- Pure application of a function pipeline to a block. -/
def applyList (fs : List Fn) (v : Value) : Value :=
  fs.foldl (fun a f => f a) v

/-- Apply a fixed sequence of functions through the partition layer, threading
the world. -/
def runApplies (w : World) (p : Partition) (fs : List Fn) :
    Option (World × Partition) :=
  fs.foldlM (fun wp f => applyPart wp.1 wp.2 f) (w, p)

/-- Materialize the block wrapped by a partition: drain, then fetch the value
behind the resolved handle (RayWrapper.materialize on the partition data). -/
def materializePart (w : World) (p : Partition) : Option SVal :=
  (drainPart w p).bind (fun r =>
    match r.2.dataRef with
    | .ref h => r.1.store[h]?
    | .de _ => Option.none)

/-- The shape of the node arena after a lazy run over an initially empty
arena: node j applies the j-th function to node j-1 (node 0 to the source
handle), each node owned once, nothing submitted. -/
def chainNodesAux (h0 : Handle) (idx : Nat) : List Fn → List DeNode
  | [] => []
  | g :: gs =>
    { src := if idx = 0 then Sum.inl h0 else Sum.inr (idx - 1), func := g,
      refs := 1, result := Option.none } :: chainNodesAux h0 (idx + 1) gs

/-- Invariant of lifecycle-event runs over the single node k.  store0 is the
store before any submission, c0 the call counter before any submission, h0
and v0 the node's source handle and block, f0 its function.  The node's
reference count always equals the number of live partitions holding it as
unresolved data; before submission nothing has changed and every live
partition is unresolved, after the single submission the store has grown by
exactly the result block and the call counter by exactly one. -/
def NodeInv (k : Nat) (store0 : List SVal) (c0 : Nat) (h0 : Handle) (f0 : Fn)
    (v0 : Value) (s : World × Parts) : Prop :=
  h0 < store0.length ∧
  store0[h0]? = some (.df v0) ∧
  ∃ nd, s.1.nodes[k]? = some nd ∧ nd.src = .inl h0 ∧ nd.func = f0 ∧
    nd.refs = Int.ofNat (liveRefs k s.2) ∧
    (∀ (i : Nat) (p : Partition), s.2[i]? = some (some p) →
      p.dataRef = .de k ∨ p.dataRef = .ref store0.length) ∧
    ((nd.result = Option.none ∧ s.1.calls = c0 ∧ s.1.store = store0 ∧
        (∀ (i : Nat) (p : Partition), s.2[i]? = some (some p) → p.dataRef = .de k)) ∨
     (∃ mid, nd.result = some (store0.length, mid, 0) ∧ s.1.calls = c0 + 1 ∧
        s.1.store = store0 ++ [SVal.df (f0 v0)]))

/-- The partition in slot i holds the single resolved result handle. -/
def SlotResolved (store0 : List SVal) (s : World × Parts) (i : Nat) : Prop :=
  ∃ p, s.2[i]? = some (some p) ∧ p.dataRef = .ref store0.length

/-! # Theorems -/

/-- C9: constructing the lazy categorical proxy with a None backing table
fails fast with the diagnostic before the proxy is used, and with any
non-null table construction succeeds and stores the table and the column
name (ordered false, categories unmaterialized). -/
theorem lazyProxyInit_spec :
    (∀ c, lazyProxyInit Option.none c = Except.error nullTableLog) ∧
    (∀ t c, lazyProxyInit (some t) c =
      Except.ok { table := some t, columnName := c, ordered := false,
                  lazyCategories := Option.none }) := by
  exact ⟨fun c => rfl, fun t c => rfl⟩

/-- C2: drain_call_queue is idempotent.  A partition whose data is a
resolved handle is left completely untouched (no remote submission, same
handle, same metadata array and offset), and a second drain right after a
first successful drain changes nothing either. -/
theorem drain_call_queue_idempotent (w : World) (p : Partition) :
    (∀ h, p.dataRef = .ref h → drainPart w p = some (w, p)) ∧
    (∀ w1 p1, drainPart w p = some (w1, p1) → drainPart w1 p1 = some (w1, p1)) := by
  constructor
  · intro h href
    simp [drainPart, href]
  · intro w1 p1 hdr
    match hd : p.dataRef with
    | .ref h =>
      rw [drainPart, hd] at hdr
      cases hdr
      simp [drainPart, hd]
    | .de id =>
      simp only [drainPart, hd] at hdr
      match he : execNode (id + 1) w id with
      | Option.none => simp only [he] at hdr; cases hdr
      | some (w2, h, mid, off) =>
        simp only [he] at hdr
        cases hdr
        simp [drainPart]

/-- Witness for C2 at a concrete resolved partition. -/
theorem drain_call_queue_idempotent_witness :
    drainPart
      { store := [SVal.int 3], calls := 0, nodes := [], metas := [[MetaVal.none]],
        lazyMode := false }
      { dataRef := .ref 0, meta := 0, metaOffset := 0 } =
    some
      ({ store := [SVal.int 3], calls := 0, nodes := [], metas := [[MetaVal.none]],
         lazyMode := false },
       { dataRef := .ref 0, meta := 0, metaOffset := 0 }) := by
  exact (drain_call_queue_idempotent _ _).1 0 rfl

/-- C5: with the lazy toggle enabled, apply returns a new partition wrapping
a fresh Deferred Computation Node built over the current data (holding the
applied function, one owner), and the Remote Executor is not touched: the
store and the call counter are unchanged. -/
theorem apply_lazy_builds_node (w : World) (p : Partition) (f : Fn)
    (hlazy : w.lazyMode = true) :
    ∃ w' p', applyPart w p f = some (w', p') ∧
      w'.store = w.store ∧
      w'.calls = w.calls ∧
      p'.dataRef = .de w.nodes.length ∧
      w'.nodes[w.nodes.length]? =
        some { src := srcOf p.dataRef, func := f, refs := 1, result := Option.none } := by
  rw [applyPart, if_pos hlazy]
  refine ⟨_, _, rfl, ?_, ?_, ?_, ?_⟩
  · simp [mkPartDims, incIfDe, bumpRef, List.getElem?_concat_length]
  · simp [mkPartDims, incIfDe, bumpRef, List.getElem?_concat_length]
  · simp [mkPartDims, incIfDe, bumpRef, List.getElem?_concat_length]
  · simp [mkPartDims, incIfDe, bumpRef, List.getElem?_concat_length,
      List.getElem?_set_self]

/-- Witness for C5 at a concrete lazy world. -/
theorem apply_lazy_builds_node_witness :
    ∃ w' p',
      applyPart
        { store := [SVal.df { payload := 3, nrows := 1, ncols := 1, loc := "w0" }],
          calls := 0, nodes := [], metas := [[MetaVal.intVal 1, MetaVal.intVal 1, MetaVal.none]],
          lazyMode := true }
        { dataRef := .ref 0, meta := 0, metaOffset := 0 }
        (fun v => { v with payload := v.payload + 1 }) = some (w', p') ∧
      w'.store =
        [SVal.df { payload := 3, nrows := 1, ncols := 1, loc := "w0" }] ∧
      w'.calls = 0 ∧
      p'.dataRef = .de 0 ∧
      w'.nodes[(0 : Nat)]? =
        some { src := Sum.inl 0, func := fun v => { v with payload := v.payload + 1 },
               refs := 1, result := Option.none } := by
  have h := apply_lazy_builds_node
    { store := [SVal.df { payload := 3, nrows := 1, ncols := 1, loc := "w0" }],
      calls := 0, nodes := [], metas := [[MetaVal.intVal 1, MetaVal.intVal 1, MetaVal.none]],
      lazyMode := true }
    { dataRef := .ref 0, meta := 0, metaOffset := 0 }
    (fun v => { v with payload := v.payload + 1 }) rfl
  exact h

/-- C7 counterexample: two partitions share the five-slot meta list at
offsets 0 and 2; the location slot is the last slot of the shared list, so
when the first partition updates its location slot the second partition's
cached location changes with it, contradicting the claim that all three
slot kinds are isolated. -/
theorem meta_offset_location_shared_cex :
    ipCache
      (setIpCache
        { store := [], calls := 0, nodes := [],
          metas := [[MetaVal.none, MetaVal.none, MetaVal.none, MetaVal.none, MetaVal.none]],
          lazyMode := false }
        { dataRef := .ref 0, meta := 0, metaOffset := 0 }
        (MetaVal.strVal "x"))
      { dataRef := .ref 0, meta := 0, metaOffset := 2 } =
        some (MetaVal.strVal "x") ∧
    ipCache
      { store := [], calls := 0, nodes := [],
        metas := [[MetaVal.none, MetaVal.none, MetaVal.none, MetaVal.none, MetaVal.none]],
        lazyMode := false }
      { dataRef := .ref 0, meta := 0, metaOffset := 2 } =
        some MetaVal.none := by
  exact ⟨rfl, rfl⟩

/-- C7 amended: with the five-slot meta list shared at offsets 0 and 2, the
row and column slots of the two partitions are fully isolated in both
directions, while the location slot (the trailing slot of the shared array)
is one and the same: an update through either partition is observed by
both. -/
theorem meta_offset_row_col_isolation (w : World) (pa pb : Partition)
    (m : Nat) (l : List MetaVal)
    (hma : pa.meta = m) (hmb : pb.meta = m)
    (hoa : pa.metaOffset = 0) (hob : pb.metaOffset = 2)
    (hl : w.metas[m]? = some l) (hlen : l.length = 5)
    (a b c : MetaVal) :
    (lengthCache (setLengthCache w pa a) pb = lengthCache w pb ∧
     widthCache (setLengthCache w pa a) pb = widthCache w pb ∧
     ipCache (setLengthCache w pa a) pb = ipCache w pb) ∧
    (lengthCache (setWidthCache w pa b) pb = lengthCache w pb ∧
     widthCache (setWidthCache w pa b) pb = widthCache w pb ∧
     ipCache (setWidthCache w pa b) pb = ipCache w pb) ∧
    (lengthCache (setLengthCache w pb a) pa = lengthCache w pa ∧
     widthCache (setLengthCache w pb a) pa = widthCache w pa ∧
     ipCache (setLengthCache w pb a) pa = ipCache w pa) ∧
    (lengthCache (setWidthCache w pb b) pa = lengthCache w pa ∧
     widthCache (setWidthCache w pb b) pa = widthCache w pa ∧
     ipCache (setWidthCache w pb b) pa = ipCache w pa) ∧
    (ipCache (setIpCache w pa c) pb = some c ∧
     ipCache (setIpCache w pb c) pa = some c) := by
  have hmlt : m < w.metas.length := by
    by_contra hc
    push_neg at hc
    rw [List.getElem?_eq_none hc] at hl
    cases hl
  refine ⟨⟨?_, ?_, ?_⟩, ⟨?_, ?_, ?_⟩, ⟨?_, ?_, ?_⟩, ⟨?_, ?_, ?_⟩, ?_, ?_⟩ <;>
    simp [lengthCache, widthCache, ipCache, setLengthCache, setWidthCache,
      setIpCache, World.metaGet, World.metaSet, metaListGet, metaListSet,
      metaIndex, hma, hmb, hoa, hob, hl, hlen, List.getElem?_set_self,
      List.getElem?_set_ne, List.length_set, hmlt]

/-- Witness for C7 amended at a concrete shared five-slot list. -/
theorem meta_offset_row_col_isolation_witness :
    (lengthCache
      (setLengthCache
        { store := [], calls := 0, nodes := [],
          metas := [[MetaVal.intVal 1, MetaVal.intVal 2, MetaVal.intVal 3,
            MetaVal.intVal 4, MetaVal.none]], lazyMode := false }
        { dataRef := .ref 0, meta := 0, metaOffset := 0 } (MetaVal.intVal 9))
      { dataRef := .ref 0, meta := 0, metaOffset := 2 } =
     lengthCache
      { store := [], calls := 0, nodes := [],
        metas := [[MetaVal.intVal 1, MetaVal.intVal 2, MetaVal.intVal 3,
          MetaVal.intVal 4, MetaVal.none]], lazyMode := false }
      { dataRef := .ref 0, meta := 0, metaOffset := 2 }) ∧
    (ipCache
      (setIpCache
        { store := [], calls := 0, nodes := [],
          metas := [[MetaVal.intVal 1, MetaVal.intVal 2, MetaVal.intVal 3,
            MetaVal.intVal 4, MetaVal.none]], lazyMode := false }
        { dataRef := .ref 0, meta := 0, metaOffset := 0 } (MetaVal.strVal "n1"))
      { dataRef := .ref 0, meta := 0, metaOffset := 2 } =
     some (MetaVal.strVal "n1")) := by
  have h := meta_offset_row_col_isolation
    { store := [], calls := 0, nodes := [],
      metas := [[MetaVal.intVal 1, MetaVal.intVal 2, MetaVal.intVal 3,
        MetaVal.intVal 4, MetaVal.none]], lazyMode := false }
    { dataRef := .ref 0, meta := 0, metaOffset := 0 }
    { dataRef := .ref 0, meta := 0, metaOffset := 2 }
    0
    [MetaVal.intVal 1, MetaVal.intVal 2, MetaVal.intVal 3, MetaVal.intVal 4,
      MetaVal.none]
    rfl rfl rfl rfl rfl rfl
    (MetaVal.intVal 9) (MetaVal.intVal 9) (MetaVal.strVal "n1")
  exact ⟨h.1.1, h.2.2.2.2.1⟩

/-- C8: the state of ip() at the failing input.  The partition's location
slot is empty and its deferred node resolves to a block living on worker
w1.  ip(materialize = True) drains the queue, the drain writes the location
into the partition's (replaced) metadata, yet the call returns the stale
pre-drain None instead of the freshly written location, because the source
never re-reads the slot after drain_call_queue. -/
theorem ip_stale_after_drain_bug :
    (Option.map (fun r => r.2.2)
      (ipPart
        { store := [SVal.df { payload := 0, nrows := 1, ncols := 1, loc := "w0" }],
          calls := 0,
          nodes := [{ src := Sum.inl 0, func := fun v => { v with loc := "w1" },
                      refs := 1, result := Option.none }],
          metas := [[MetaVal.none, MetaVal.none, MetaVal.none]],
          lazyMode := false }
        { dataRef := .de 0, meta := 0, metaOffset := 0 } true) =
      some MetaVal.none) ∧
    ((ipPart
        { store := [SVal.df { payload := 0, nrows := 1, ncols := 1, loc := "w0" }],
          calls := 0,
          nodes := [{ src := Sum.inl 0, func := fun v => { v with loc := "w1" },
                      refs := 1, result := Option.none }],
          metas := [[MetaVal.none, MetaVal.none, MetaVal.none]],
          lazyMode := false }
        { dataRef := .de 0, meta := 0, metaOffset := 0 } true).bind
      (fun r => ipCache r.1 r.2.1) = some (MetaVal.strVal "w1")) := by
  exact ⟨rfl, rfl⟩

/-- The base mask on the full slice in closed form: a queued node over the
current data and a fresh meta list aliasing the source caches. -/
theorem superMask_full (w : World) (p : Partition) :
    superMask w p .sliceAll .sliceAll =
      ({ w with
          nodes := w.nodes ++
            [{ src := srcOf p.dataRef, func := maskSelect .sliceAll .sliceAll,
               refs := 1, result := Option.none }],
          metas := w.metas ++
            [[(lengthCache w p).getD .none, (widthCache w p).getD .none,
              MetaVal.none]] },
       { dataRef := .de w.nodes.length, meta := w.metas.length,
         metaOffset := 0 }) := by
  simp only [superMask, addToApplyCalls, mkPartDims, incIfDe, bumpRef,
    setLengthCache, setWidthCache, World.metaSet, tryRecomputeCache,
    List.getElem?_concat_length, List.set_append, Nat.lt_irrefl, if_false,
    Nat.sub_self]
  simp [metaListSet, metaIndex]

/-- C6: masking with the full slice on both axes issues no new remote call
(call counter and store untouched) and returns a partition whose cached
length and width alias the source partition's cached values, whatever form
they are in. -/
theorem mask_full_slice_aliases (w : World) (p : Partition) (l : List MetaVal)
    (hl : w.metas[p.meta]? = some l) (hoff : p.metaOffset + 1 < l.length) :
    ∃ w' p', maskPart w p .sliceAll .sliceAll = (w', p') ∧
      lengthCache w' p' = lengthCache w p ∧
      widthCache w' p' = widthCache w p ∧
      w'.calls = w.calls ∧
      w'.store = w.store := by
  have hoffl : p.metaOffset < l.length := by omega
  have hIdx : ∀ (len j : Nat), j < len → metaIndex len (Int.ofNat j) = some j := by
    intro len j hj
    unfold metaIndex
    have h0 : ¬ (Int.ofNat j < 0) := by
      simp
    have h1 : (Int.ofNat j).toNat < len := by simpa using hj
    rw [if_neg h0, if_pos h1]
    simp
  have hlv : lengthCache w p = some l[p.metaOffset] := by
    rw [lengthCache, World.metaGet, hl]
    show metaListGet l (Int.ofNat p.metaOffset) = _
    rw [metaListGet, hIdx _ _ hoffl]
    simp [List.getElem?_eq_getElem hoffl]
  have hwv : widthCache w p = some l[p.metaOffset + 1] := by
    rw [widthCache, World.metaGet, hl]
    show metaListGet l (Int.ofNat (p.metaOffset + 1)) = _
    rw [metaListGet, hIdx _ _ hoff]
    simp [List.getElem?_eq_getElem hoff]
  have hstep : maskPart w p .sliceAll .sliceAll =
      ({ w with
          nodes := w.nodes ++
            [{ src := srcOf p.dataRef, func := maskSelect .sliceAll .sliceAll,
               refs := 1, result := Option.none }],
          metas := w.metas ++
            [[l[p.metaOffset], l[p.metaOffset + 1], MetaVal.none]] },
       { dataRef := .de w.nodes.length, meta := w.metas.length,
         metaOffset := 0 }) := by
    rw [maskPart, superMask_full, hlv, hwv]
    by_cases h1 : (l[p.metaOffset]).isRef = true <;>
      by_cases h2 : (l[p.metaOffset + 1]).isRef = true <;>
        simp [h1, h2, setLengthCache, setWidthCache, World.metaSet,
          metaListSet, metaIndex, List.getElem?_concat_length,
          List.set_append, Labels.isSlice]
  rw [hstep]
  refine ⟨_, _, rfl, ?_, ?_, rfl, rfl⟩
  · rw [hlv, lengthCache, World.metaGet]
    simp [List.getElem?_concat_length, metaListGet, metaIndex]
  · rw [hwv, widthCache, World.metaGet]
    simp [List.getElem?_concat_length, metaListGet, metaIndex]

/-- A live slot holding a partition that references node k makes the live
reference count positive. -/
theorem liveRefs_pos (k : Nat) (ps : Parts) (i : Nat) (p : Partition)
    (hslot : ps[i]? = some (some p)) (hde : p.dataRef = .de k) :
    1 ≤ liveRefs k ps := by
  have hmem : some p ∈ ps := by
    rcases List.getElem?_eq_some_iff.mp hslot with ⟨hlt, heq⟩
    have := List.getElem_mem hlt
    rwa [heq] at this
  have : 0 < liveRefs k ps := by
    rw [liveRefs, List.countP_pos_iff]
    exact ⟨some p, hmem, by simp [countsRef, hde]⟩
  omega

/-- The live reference count after overwriting a referencing slot with a
resolved partition drops by exactly one. -/
theorem liveRefs_set_resolve (k : Nat) (ps : Parts) (i : Nat) (p p' : Partition)
    (hslot : ps[i]? = some (some p)) (hde : p.dataRef = .de k)
    (hp' : p'.dataRef ≠ .de k) :
    liveRefs k (ps.set i (some p')) = liveRefs k ps - 1 := by
  rcases List.getElem?_eq_some_iff.mp hslot with ⟨hlt, heq⟩
  rw [liveRefs, List.countP_set _ _ _ _ hlt, heq]
  simp [countsRef, hde, hp', liveRefs]

/-- Overwriting a slot with a partition of the same counting status keeps
the live reference count. -/
theorem liveRefs_set_same (k : Nat) (ps : Parts) (i : Nat) (op op' : Option Partition)
    (hslot : ps[i]? = some op)
    (hsame : countsRef k op = countsRef k op') :
    liveRefs k (ps.set i op') = liveRefs k ps := by
  rcases List.getElem?_eq_some_iff.mp hslot with ⟨hlt, heq⟩
  rw [liveRefs, List.countP_set _ _ _ _ hlt, heq]
  rw [liveRefs]
  rw [← hsame]
  have hle : (if countsRef k op = true then 1 else 0) ≤
      List.countP (countsRef k) ps := by
    split
    next hx =>
      have : 0 < List.countP (countsRef k) ps := by
        rw [List.countP_pos_iff]
        refine ⟨op, ?_, hx⟩
        have := List.getElem_mem hlt
        rwa [heq] at this
      omega
    next => omega
  omega

/-- Draining slot i preserves the node invariant, resolves the slot when it
is live, and leaves every other slot untouched. -/
theorem nodeInv_drain (k : Nat) (store0 : List SVal) (c0 : Nat) (h0 : Handle)
    (f0 : Fn) (v0 : Value) (s : World × Parts) (i : Nat)
    (hinv : NodeInv k store0 c0 h0 f0 v0 s) :
    ∃ s', evStep k s (Ev.drain i) = some s' ∧ NodeInv k store0 c0 h0 f0 v0 s' ∧
      (∀ j, j ≠ i → s'.2[j]? = s.2[j]?) ∧
      (∀ p, s.2[i]? = some (some p) → SlotResolved store0 s' i) := by
  obtain ⟨hh0, hv0, nd, hnd, hsrc, hfunc, hrefs, hkinds, hstate⟩ := hinv
  have hklt : k < s.1.nodes.length := (List.getElem?_eq_some_iff.mp hnd).1
  match hslot : s.2[i]? with
  | Option.none =>
    refine ⟨s, by simp [evStep, hslot], ⟨hh0, hv0, nd, hnd, hsrc, hfunc, hrefs,
      hkinds, hstate⟩, fun j _ => rfl, fun p hp => by cases hp⟩
  | some Option.none =>
    refine ⟨s, by simp [evStep, hslot], ⟨hh0, hv0, nd, hnd, hsrc, hfunc, hrefs,
      hkinds, hstate⟩, fun j _ => rfl, fun p hp => by cases hp⟩
  | some (some p) =>
    have hilt : i < s.2.length := (List.getElem?_eq_some_iff.mp hslot).1
    rcases hkinds i p hslot with hde | href
    · -- the slot still references the node
      rcases hstate with ⟨hres, hcalls, hstore, hallde⟩ | ⟨mid, hres, hcalls, hstore⟩
      · -- first submission
        have hlook : s.1.store[h0]? = some (SVal.df v0) := by rw [hstore]; exact hv0
        have he : execNode (k + 1) s.1 k =
            some ({ s.1 with
                      store := s.1.store ++ [SVal.df (f0 v0)],
                      calls := s.1.calls + 1,
                      metas := s.1.metas ++
                        [[MetaVal.intVal (f0 v0).nrows, MetaVal.intVal (f0 v0).ncols,
                          MetaVal.strVal (f0 v0).loc]],
                      nodes := s.1.nodes.set k
                        { nd with result := some (s.1.store.length, s.1.metas.length, 0) } },
                  s.1.store.length, s.1.metas.length, 0) := by
          simp only [execNode, hnd, hres, hsrc, hlook, hfunc]
        have hstep : evStep k s (.drain i) =
            some ({ s.1 with
                      store := s.1.store ++ [SVal.df (f0 v0)],
                      calls := s.1.calls + 1,
                      metas := s.1.metas ++
                        [[MetaVal.intVal (f0 v0).nrows, MetaVal.intVal (f0 v0).ncols,
                          MetaVal.strVal (f0 v0).loc]],
                      nodes := s.1.nodes.set k
                        { nd with refs := nd.refs + -1,
                                  result := some (s.1.store.length, s.1.metas.length, 0) } },
                  s.2.set i (some
                    { dataRef := .ref s.1.store.length, meta := s.1.metas.length,
                      metaOffset := 0 })) := by
          simp only [evStep, hslot, drainPart, hde, he, bumpRef,
            List.getElem?_set_self hklt, List.set_set]
        refine ⟨_, hstep, ?_, ?_, ?_⟩
        · refine ⟨hh0, hv0, _, List.getElem?_set_self hklt, hsrc, hfunc, ?_, ?_, ?_⟩
          · show nd.refs + -1 = Int.ofNat (liveRefs k (s.2.set i (some _)))
            rw [liveRefs_set_resolve k s.2 i p _ hslot hde (by simp), hrefs]
            have hpos := liveRefs_pos k s.2 i p hslot hde
            simp only [Int.ofNat_eq_natCast]
            omega
          · intro j q hq
            by_cases hji : j = i
            · subst hji
              rw [List.getElem?_set_self hilt] at hq
              cases hq
              right
              rw [hstore]
            · rw [List.getElem?_set_ne (fun h => hji h.symm)] at hq
              exact hkinds j q hq
          · right
            refine ⟨s.1.metas.length, ?_, by rw [hcalls], by rw [hstore]⟩
            simp [hstore]
        · intro j hj
          exact List.getElem?_set_ne (fun h => hj h.symm)
        · intro q hq
          refine ⟨_, List.getElem?_set_self hilt, ?_⟩
          simp [hstore]
      · -- already submitted: the memoized outcome is observed, no new call
        have he : execNode (k + 1) s.1 k = some (s.1, store0.length, mid, 0) := by
          simp only [execNode, hnd, hres]
        have hstep : evStep k s (.drain i) =
            some ({ s.1 with nodes := s.1.nodes.set k { nd with refs := nd.refs + -1 } },
                  s.2.set i (some
                    { dataRef := .ref store0.length, meta := mid, metaOffset := 0 })) := by
          simp only [evStep, hslot, drainPart, hde, he, bumpRef, hnd]
        refine ⟨_, hstep, ?_, ?_, ?_⟩
        · refine ⟨hh0, hv0, _, List.getElem?_set_self hklt, hsrc, hfunc, ?_, ?_, ?_⟩
          · show nd.refs + -1 = Int.ofNat (liveRefs k (s.2.set i (some _)))
            rw [liveRefs_set_resolve k s.2 i p _ hslot hde (by simp), hrefs]
            have hpos := liveRefs_pos k s.2 i p hslot hde
            simp only [Int.ofNat_eq_natCast]
            omega
          · intro j q hq
            by_cases hji : j = i
            · subst hji
              rw [List.getElem?_set_self hilt] at hq
              cases hq
              right
              rfl
            · rw [List.getElem?_set_ne (fun h => hji h.symm)] at hq
              exact hkinds j q hq
          · right
            exact ⟨mid, hres, hcalls, hstore⟩
        · intro j hj
          exact List.getElem?_set_ne (fun h => hj h.symm)
        · intro q hq
          exact ⟨_, List.getElem?_set_self hilt, rfl⟩
    · -- the slot is already resolved: drain is a no-op on it
      have hstep : evStep k s (.drain i) = some (s.1, s.2.set i (some p)) := by
        simp only [evStep, hslot, drainPart, href]
      refine ⟨_, hstep, ?_, ?_, ?_⟩
      · refine ⟨hh0, hv0, nd, hnd, hsrc, hfunc, ?_, ?_, ?_⟩
        · rw [liveRefs_set_same k s.2 i (some p) (some p) hslot rfl]
          exact hrefs
        · intro j q hq
          by_cases hji : j = i
          · subst hji
            rw [List.getElem?_set_self hilt] at hq
            cases hq
            right
            exact href
          · rw [List.getElem?_set_ne (fun h => hji h.symm)] at hq
            exact hkinds j q hq
        · rcases hstate with ⟨hres, hcalls, hstore, hallde⟩ | hpost
          · exact absurd (hallde i p hslot) (by rw [href]; intro h; cases h)
          · exact Or.inr hpost
      · intro j hj
        exact List.getElem?_set_ne (fun h => hj h.symm)
      · intro q hq
        exact ⟨p, List.getElem?_set_self hilt, href⟩

/-- The live reference count after clearing (or resolving) a counting slot
drops by exactly one. -/
theorem liveRefs_set_drop (k : Nat) (ps : Parts) (i : Nat) (op op' : Option Partition)
    (hslot : ps[i]? = some op)
    (hc : countsRef k op = true) (hc' : countsRef k op' = false) :
    liveRefs k (ps.set i op') = liveRefs k ps - 1 := by
  rcases List.getElem?_eq_some_iff.mp hslot with ⟨hlt, heq⟩
  rw [liveRefs, List.countP_set _ _ _ _ hlt, heq, liveRefs]
  simp [hc, hc']

/-- Every lifecycle event preserves the node invariant and never fails. -/
theorem nodeInv_step (k : Nat) (store0 : List SVal) (c0 : Nat) (h0 : Handle)
    (f0 : Fn) (v0 : Value) (s : World × Parts) (e : Ev)
    (hinv : NodeInv k store0 c0 h0 f0 v0 s) :
    ∃ s', evStep k s e = some s' ∧ NodeInv k store0 c0 h0 f0 v0 s' := by
  cases e with
  | drain i =>
    obtain ⟨s', h1, h2, _, _⟩ :=
      nodeInv_drain k store0 c0 h0 f0 v0 s i hinv
    exact ⟨s', h1, h2⟩
  | create =>
    obtain ⟨hh0, hv0, nd, hnd, hsrc, hfunc, hrefs, hkinds, hstate⟩ := hinv
    have hklt : k < s.1.nodes.length := (List.getElem?_eq_some_iff.mp hnd).1
    have hstep : evStep k s Ev.create = some
        ({ s.1 with nodes := s.1.nodes.set k { nd with refs := nd.refs + 1 },
                    metas := s.1.metas ++ [[MetaVal.none, MetaVal.none, MetaVal.none]] },
         s.2 ++ [some { dataRef := .de k, meta := s.1.metas.length, metaOffset := 0 }]) := by
      simp only [evStep, mkPartDims, incIfDe, bumpRef, hnd]
    refine ⟨_, hstep, hh0, hv0, _, List.getElem?_set_self hklt, hsrc, hfunc,
      ?_, ?_, ?_⟩
    · show nd.refs + 1 = Int.ofNat (liveRefs k (s.2 ++ [some _]))
      rw [liveRefs, List.countP_append, hrefs]
      simp only [Int.ofNat_eq_natCast, liveRefs]
      have : List.countP (countsRef k)
          [some { dataRef := PData.de k, meta := s.1.metas.length, metaOffset := 0 }] = 1 := by
        simp [List.countP_cons, countsRef]
      rw [this]
      push_cast
      ring
    · intro j q hq
      by_cases hj : j < s.2.length
      · rw [List.getElem?_append_left hj] at hq
        exact hkinds j q hq
      · by_cases hj2 : j = s.2.length
        · subst hj2
          rw [List.getElem?_concat_length] at hq
          cases hq
          left
          rfl
        · rw [List.getElem?_eq_none (by simp; omega)] at hq
          cases hq
    · rcases hstate with ⟨hres, hcalls, hstore, hallde⟩ | ⟨mid, hres, hcalls, hstore⟩
      · left
        refine ⟨hres, hcalls, hstore, ?_⟩
        intro j q hq
        by_cases hj : j < s.2.length
        · rw [List.getElem?_append_left hj] at hq
          exact hallde j q hq
        · by_cases hj2 : j = s.2.length
          · subst hj2
            rw [List.getElem?_concat_length] at hq
            cases hq
            rfl
          · rw [List.getElem?_eq_none (by simp; omega)] at hq
            cases hq
      · exact Or.inr ⟨mid, hres, hcalls, hstore⟩
  | copy i =>
    obtain ⟨hh0, hv0, nd, hnd, hsrc, hfunc, hrefs, hkinds, hstate⟩ := hinv
    have hklt : k < s.1.nodes.length := (List.getElem?_eq_some_iff.mp hnd).1
    match hslot : s.2[i]? with
    | Option.none =>
      exact ⟨s, by simp [evStep, hslot], hh0, hv0, nd, hnd, hsrc, hfunc, hrefs,
        hkinds, hstate⟩
    | some Option.none =>
      exact ⟨s, by simp [evStep, hslot], hh0, hv0, nd, hnd, hsrc, hfunc, hrefs,
        hkinds, hstate⟩
    | some (some p) =>
      rcases hkinds i p hslot with hde | href
      · have hstep : evStep k s (Ev.copy i) = some
            ({ s.1 with nodes := s.1.nodes.set k { nd with refs := nd.refs + 1 } },
             s.2 ++ [some { dataRef := PData.de k, meta := p.meta, metaOffset := p.metaOffset }]) := by
          simp only [evStep, hslot, copyPart, mkPartMeta, incIfDe, hde, bumpRef, hnd]
        refine ⟨_, hstep, hh0, hv0, _, List.getElem?_set_self hklt, hsrc, hfunc,
          ?_, ?_, ?_⟩
        · show nd.refs + 1 = Int.ofNat (liveRefs k (s.2 ++ [some _]))
          rw [liveRefs, List.countP_append, hrefs]
          simp only [Int.ofNat_eq_natCast, liveRefs]
          have hone : List.countP (countsRef k) [some { dataRef := PData.de k, meta := p.meta, metaOffset := p.metaOffset }] = 1 := by
            simp [List.countP_cons, countsRef]
          rw [hone]
          push_cast
          ring
        · intro j q hq
          by_cases hj : j < s.2.length
          · rw [List.getElem?_append_left hj] at hq
            exact hkinds j q hq
          · by_cases hj2 : j = s.2.length
            · subst hj2
              rw [List.getElem?_concat_length] at hq
              cases hq
              exact Or.inl rfl
            · rw [List.getElem?_eq_none (by simp; omega)] at hq
              cases hq
        · rcases hstate with ⟨hres, hcalls, hstore, hallde⟩ | ⟨mid, hres, hcalls, hstore⟩
          · left
            refine ⟨hres, hcalls, hstore, ?_⟩
            intro j q hq
            by_cases hj : j < s.2.length
            · rw [List.getElem?_append_left hj] at hq
              exact hallde j q hq
            · by_cases hj2 : j = s.2.length
              · subst hj2
                rw [List.getElem?_concat_length] at hq
                cases hq
                rfl
              · rw [List.getElem?_eq_none (by simp; omega)] at hq
                cases hq
          · exact Or.inr ⟨mid, hres, hcalls, hstore⟩
      · have hstep : evStep k s (Ev.copy i) = some (s.1,
            s.2 ++ [some { dataRef := PData.ref store0.length, meta := p.meta, metaOffset := p.metaOffset }]) := by
          simp only [evStep, hslot, copyPart, mkPartMeta, incIfDe, href]
        refine ⟨_, hstep, hh0, hv0, nd, hnd, hsrc, hfunc, ?_, ?_, ?_⟩
        · rw [liveRefs, List.countP_append, hrefs]
          simp only [liveRefs]
          have hzero : List.countP (countsRef k) [some { dataRef := PData.ref store0.length, meta := p.meta, metaOffset := p.metaOffset }] = 0 := by
            simp [List.countP_cons, countsRef]
          rw [hzero]
          rfl
        · intro j q hq
          by_cases hj : j < s.2.length
          · rw [List.getElem?_append_left hj] at hq
            exact hkinds j q hq
          · by_cases hj2 : j = s.2.length
            · subst hj2
              rw [List.getElem?_concat_length] at hq
              cases hq
              exact Or.inr rfl
            · rw [List.getElem?_eq_none (by simp; omega)] at hq
              cases hq
        · rcases hstate with ⟨hres, hcalls, hstore, hallde⟩ | ⟨mid, hres, hcalls, hstore⟩
          · exact absurd (hallde i p hslot) (by rw [href]; intro h; cases h)
          · exact Or.inr ⟨mid, hres, hcalls, hstore⟩
  | destroy i =>
    obtain ⟨hh0, hv0, nd, hnd, hsrc, hfunc, hrefs, hkinds, hstate⟩ := hinv
    have hklt : k < s.1.nodes.length := (List.getElem?_eq_some_iff.mp hnd).1
    match hslot : s.2[i]? with
    | Option.none =>
      exact ⟨s, by simp [evStep, hslot], hh0, hv0, nd, hnd, hsrc, hfunc, hrefs,
        hkinds, hstate⟩
    | some Option.none =>
      exact ⟨s, by simp [evStep, hslot], hh0, hv0, nd, hnd, hsrc, hfunc, hrefs,
        hkinds, hstate⟩
    | some (some p) =>
      have hilt : i < s.2.length := (List.getElem?_eq_some_iff.mp hslot).1
      rcases hkinds i p hslot with hde | href
      · have hstep : evStep k s (Ev.destroy i) = some
            ({ s.1 with nodes := s.1.nodes.set k { nd with refs := nd.refs + -1 } },
             s.2.set i Option.none) := by
          simp only [evStep, hslot, delPart, hde, bumpRef, hnd]
        refine ⟨_, hstep, hh0, hv0, _, List.getElem?_set_self hklt, hsrc, hfunc,
          ?_, ?_, ?_⟩
        · show nd.refs + -1 = Int.ofNat (liveRefs k (s.2.set i Option.none))
          rw [liveRefs_set_drop k s.2 i (some p) Option.none hslot
            (by simp [countsRef, hde]) (by simp [countsRef]), hrefs]
          have hpos := liveRefs_pos k s.2 i p hslot hde
          simp only [Int.ofNat_eq_natCast]
          omega
        · intro j q hq
          by_cases hji : j = i
          · subst hji
            rw [List.getElem?_set_self hilt] at hq
            cases hq
          · rw [List.getElem?_set_ne (fun h => hji h.symm)] at hq
            exact hkinds j q hq
        · rcases hstate with ⟨hres, hcalls, hstore, hallde⟩ | ⟨mid, hres, hcalls, hstore⟩
          · left
            refine ⟨hres, hcalls, hstore, ?_⟩
            intro j q hq
            by_cases hji : j = i
            · subst hji
              rw [List.getElem?_set_self hilt] at hq
              cases hq
            · rw [List.getElem?_set_ne (fun h => hji h.symm)] at hq
              exact hallde j q hq
          · exact Or.inr ⟨mid, hres, hcalls, hstore⟩
      · have hstep : evStep k s (Ev.destroy i) = some (s.1, s.2.set i Option.none) := by
          simp only [evStep, hslot, delPart, href]
        refine ⟨_, hstep, hh0, hv0, nd, hnd, hsrc, hfunc, ?_, ?_, ?_⟩
        · rw [liveRefs_set_same k s.2 i (some p) Option.none hslot
            (by simp [countsRef, href])]
          exact hrefs
        · intro j q hq
          by_cases hji : j = i
          · subst hji
            rw [List.getElem?_set_self hilt] at hq
            cases hq
          · rw [List.getElem?_set_ne (fun h => hji h.symm)] at hq
            exact hkinds j q hq
        · rcases hstate with ⟨hres, hcalls, hstore, hallde⟩ | ⟨mid, hres, hcalls, hstore⟩
          · exact absurd (hallde i p hslot) (by rw [href]; intro h; cases h)
          · exact Or.inr ⟨mid, hres, hcalls, hstore⟩

/-- Any sequence of lifecycle events runs to completion and preserves the
node invariant. -/
theorem nodeInv_run (k : Nat) (store0 : List SVal) (c0 : Nat) (h0 : Handle)
    (f0 : Fn) (v0 : Value) (evs : List Ev) (s : World × Parts)
    (hinv : NodeInv k store0 c0 h0 f0 v0 s) :
    ∃ s', runEvents k s evs = some s' ∧ NodeInv k store0 c0 h0 f0 v0 s' := by
  induction evs generalizing s with
  | nil => exact ⟨s, rfl, hinv⟩
  | cons e evs ih =>
    obtain ⟨s1, h1, h2⟩ := nodeInv_step k store0 c0 h0 f0 v0 s e hinv
    obtain ⟨s', h3, h4⟩ := ih s1 h2
    refine ⟨s', ?_, h4⟩
    rw [runEvents, List.foldlM_cons, h1]
    exact h3

/-- C4 counterexample: destroying a partition that has already been drained
does not decrement the node's reference count.  After create and drain the
count is 0, and the destroy leaves it 0, whereas the claim ("decremented
exactly once per partition destruction and once per successful drain")
demands one decrement per destruction, which would take the count below
zero. -/
theorem refcount_destroy_no_decrement_cex :
    (Option.map (fun s => nodeRefs s.1 0)
      (runEvents 0
        ({ store := [SVal.df { payload := 0, nrows := 1, ncols := 1, loc := "w0" }],
           calls := 0,
           nodes := [{ src := Sum.inl 0, func := fun v => v, refs := 0,
                       result := Option.none }],
           metas := [], lazyMode := false }, [])
        [Ev.create, Ev.drain 0]) = some 0) ∧
    (Option.map (fun s => nodeRefs s.1 0)
      (runEvents 0
        ({ store := [SVal.df { payload := 0, nrows := 1, ncols := 1, loc := "w0" }],
           calls := 0,
           nodes := [{ src := Sum.inl 0, func := fun v => v, refs := 0,
                       result := Option.none }],
           metas := [], lazyMode := false }, [])
        [Ev.create, Ev.drain 0, Ev.destroy 0]) = some 0) := by
  exact ⟨rfl, rfl⟩

/-- C4 amended: over any sequence of construction, copy, drain and
destruction events on one node, the reference count is incremented exactly
once per partition constructed or copied with the node as data, and
decremented exactly once per successful drain and once per destruction of a
partition still holding the node as unresolved data (a drained partition's
destruction does not decrement); consequently the count always equals the
number of live partitions referencing the node, it is 0 once they are all
gone, and the node is submitted at most once (the call counter grows by at
most one over the whole run). -/
theorem refcount_balance (w0 : World) (k : Nat) (h0 : Handle) (f0 : Fn)
    (v0 : Value)
    (hnode : w0.nodes[k]? = some { src := Sum.inl h0, func := f0, refs := 0, result := Option.none })
    (hsrc : w0.store[h0]? = some (.df v0)) (evs : List Ev) :
    ∃ w' ps', runEvents k (w0, []) evs = some (w', ps') ∧
      nodeRefs w' k = Int.ofNat (liveRefs k ps') ∧
      w'.calls ≤ w0.calls + 1 ∧
      (liveRefs k ps' = 0 → nodeRefs w' k = 0) := by
  have hh0 : h0 < w0.store.length := (List.getElem?_eq_some_iff.mp hsrc).1
  have hinv : NodeInv k w0.store w0.calls h0 f0 v0 (w0, []) := by
    refine ⟨hh0, hsrc, _, hnode, rfl, rfl, by simp [liveRefs], ?_, ?_⟩
    · intro i p h
      simp at h
    · left
      refine ⟨rfl, rfl, rfl, ?_⟩
      intro i p h
      simp at h
  obtain ⟨⟨w', ps'⟩, hrun, hinv'⟩ :=
    nodeInv_run k w0.store w0.calls h0 f0 v0 evs (w0, []) hinv
  obtain ⟨_, _, nd, hnd, _, _, hrefs, _, hstate⟩ := hinv'
  dsimp only at hnd hrefs hstate
  refine ⟨w', ps', hrun, ?_, ?_, ?_⟩
  · rw [nodeRefs, hnd]
    exact hrefs
  · rcases hstate with ⟨_, hcalls, _, _⟩ | ⟨_, _, hcalls, _⟩
    · omega
    · omega
  · intro hz
    simp [nodeRefs, hnd, hrefs, hz]

/-- Witness for C4 amended at a concrete run: create two partitions, drain
one, destroy both. -/
theorem refcount_balance_witness :
    ∃ w' ps',
      runEvents 0
        ({ store := [SVal.df { payload := 0, nrows := 1, ncols := 1, loc := "w0" }],
           calls := 0,
           nodes := [{ src := Sum.inl 0, func := fun v => v, refs := 0,
                       result := Option.none }],
           metas := [], lazyMode := false }, [])
        [Ev.create, Ev.copy 0, Ev.drain 0, Ev.destroy 0, Ev.destroy 1] =
        some (w', ps') ∧
      nodeRefs w' 0 = Int.ofNat (liveRefs 0 ps') ∧
      w'.calls ≤ 0 + 1 ∧
      (liveRefs 0 ps' = 0 → nodeRefs w' 0 = 0) := by
  exact refcount_balance
    { store := [SVal.df { payload := 0, nrows := 1, ncols := 1, loc := "w0" }],
      calls := 0,
      nodes := [{ src := Sum.inl 0, func := fun v => v, refs := 0,
                  result := Option.none }],
      metas := [], lazyMode := false }
    0 0 (fun v => v)
    { payload := 0, nrows := 1, ncols := 1, loc := "w0" } rfl rfl
    [Ev.create, Ev.copy 0, Ev.drain 0, Ev.destroy 0, Ev.destroy 1]

/-- Any sequence of drains of live slots runs to completion, preserves the
invariant, resolves every drained slot to the single result handle, leaves
the other slots untouched, and never un-resolves a slot. -/
theorem drains_run (k : Nat) (store0 : List SVal) (c0 : Nat) (h0 : Handle)
    (f0 : Fn) (v0 : Value) (idxs : List Nat) (s : World × Parts)
    (hinv : NodeInv k store0 c0 h0 f0 v0 s)
    (hlive : ∀ i ∈ idxs, ∃ p, s.2[i]? = some (some p)) :
    ∃ s', runEvents k s (idxs.map Ev.drain) = some s' ∧
      NodeInv k store0 c0 h0 f0 v0 s' ∧
      (∀ i ∈ idxs, SlotResolved store0 s' i) ∧
      (∀ j, j ∉ idxs → s'.2[j]? = s.2[j]?) ∧
      (∀ j, SlotResolved store0 s j → SlotResolved store0 s' j) := by
  induction idxs generalizing s with
  | nil =>
    exact ⟨s, rfl, hinv, by simp, fun j _ => rfl, fun j h => h⟩
  | cons i idxs ih =>
    obtain ⟨p, hp⟩ := hlive i (by simp)
    obtain ⟨s1, hstep, hinv1, hothers, hres⟩ :=
      nodeInv_drain k store0 c0 h0 f0 v0 s i hinv
    have hresolved1 : SlotResolved store0 s1 i := hres p hp
    have hlive1 : ∀ j ∈ idxs, ∃ q, s1.2[j]? = some (some q) := by
      intro j hj
      by_cases hji : j = i
      · subst hji
        obtain ⟨q, hq, _⟩ := hresolved1
        exact ⟨q, hq⟩
      · obtain ⟨q, hq⟩ := hlive j (by simp [hj])
        exact ⟨q, by rw [hothers j hji]; exact hq⟩
    obtain ⟨s', hrun, hinv', hresall, huntouched, hpersist⟩ := ih s1 hinv1 hlive1
    refine ⟨s', ?_, hinv', ?_, ?_, ?_⟩
    · rw [List.map_cons, runEvents, List.foldlM_cons, hstep]
      exact hrun
    · intro j hj
      rcases List.mem_cons.mp hj with hj | hj
      · subst hj
        exact hpersist j hresolved1
      · exact hresall j hj
    · intro j hj
      have hj1 : j ∉ idxs := fun h => hj (List.mem_cons_of_mem _ h)
      have hji : j ≠ i := fun h => hj (by rw [h]; exact List.mem_cons_self _ _)
      rw [huntouched j hj1, hothers j hji]
    · intro j hj
      by_cases hji : j = i
      · subst hji
        obtain ⟨q, hq, _⟩ := hj
        exact hpersist j (hres q hq)
      · refine hpersist j ?_
        obtain ⟨q, hq, hqr⟩ := hj
        exact ⟨q, by rw [hothers j hji]; exact hq, hqr⟩

/-- C1: for N partitions sharing one unsubmitted Deferred Computation Node,
draining any nonempty subset of them, in any order and with repetitions
allowed, submits the node to the Remote Executor exactly once (the call
counter grows by exactly one over the whole run), every drained partition
ends up holding the same resolved result handle, and partitions not drained
are untouched. -/
theorem at_most_once_submission (w0 : World) (k : Nat) (h0 : Handle) (f0 : Fn)
    (v0 : Value) (ps : List Partition) (idxs : List Nat)
    (hnode : w0.nodes[k]? = some { src := Sum.inl h0, func := f0, refs := Int.ofNat ps.length, result := Option.none })
    (hsrc : w0.store[h0]? = some (.df v0))
    (hps : ∀ p ∈ ps, p.dataRef = .de k)
    (hidx : ∀ i ∈ idxs, i < ps.length)
    (hne : idxs ≠ []) :
    ∃ w' ps', runEvents k (w0, ps.map some) (idxs.map Ev.drain) = some (w', ps') ∧
      w'.calls = w0.calls + 1 ∧
      (∀ i ∈ idxs, ∃ p, ps'[i]? = some (some p) ∧
        p.dataRef = .ref w0.store.length) ∧
      (∀ j, j ∉ idxs → ps'[j]? = (ps.map some)[j]?) := by
  have hh0 : h0 < w0.store.length := (List.getElem?_eq_some_iff.mp hsrc).1
  have hcount : liveRefs k (ps.map some) = ps.length := by
    rw [liveRefs, List.countP_map]
    rw [List.countP_eq_length]
    intro p hp
    simp [Function.comp, countsRef, hps p hp]
  have hinv : NodeInv k w0.store w0.calls h0 f0 v0 (w0, ps.map some) := by
    refine ⟨hh0, hsrc, _, hnode, rfl, rfl, by rw [hcount], ?_, ?_⟩
    · intro i p h
      rw [List.getElem?_map] at h
      have hip : ps[i]? = some p := by
        cases hps2 : ps[i]? with
        | none => rw [hps2] at h; cases h
        | some q =>
          rw [hps2] at h
          cases h
          rfl
      have hmem : p ∈ ps := by
        rcases List.getElem?_eq_some_iff.mp hip with ⟨hlt, heq⟩
        have hm := List.getElem_mem hlt
        rwa [heq] at hm
      exact Or.inl (hps p hmem)
    · left
      refine ⟨rfl, rfl, rfl, ?_⟩
      intro i p h
      rw [List.getElem?_map] at h
      have hip : ps[i]? = some p := by
        cases hps2 : ps[i]? with
        | none => rw [hps2] at h; cases h
        | some q =>
          rw [hps2] at h
          cases h
          rfl
      have hmem : p ∈ ps := by
        rcases List.getElem?_eq_some_iff.mp hip with ⟨hlt, heq⟩
        have hm := List.getElem_mem hlt
        rwa [heq] at hm
      exact hps p hmem
  have hlive : ∀ i ∈ idxs, ∃ p, (ps.map some)[i]? = some (some p) := by
    intro i hi
    have hlt : i < ps.length := hidx i hi
    refine ⟨ps[i], ?_⟩
    rw [List.getElem?_map, List.getElem?_eq_getElem hlt]
    rfl
  obtain ⟨⟨w', ps'⟩, hrun, hinv', hresall, huntouched, _⟩ :=
    drains_run k w0.store w0.calls h0 f0 v0 idxs (w0, ps.map some) hinv hlive
  refine ⟨w', ps', hrun, ?_, ?_, huntouched⟩
  · obtain ⟨i0, hi0⟩ : ∃ i0, i0 ∈ idxs := by
      cases idxs with
      | nil => exact absurd rfl hne
      | cons a l => exact ⟨a, by simp⟩
    obtain ⟨q, hq, hqr⟩ := hresall i0 hi0
    obtain ⟨_, _, nd, hnd, _, _, _, hkinds', hstate'⟩ := hinv'
    rcases hstate' with ⟨_, _, _, hallde⟩ | ⟨_, _, hcalls, _⟩
    · exact absurd (hallde i0 q hq) (by rw [hqr]; intro h; cases h)
    · exact hcalls
  · exact hresall

/-- Witness for C1: two partitions sharing an unsubmitted node, draining
both in order. -/
theorem at_most_once_submission_witness :
    ∃ w' ps',
      runEvents 0
        ({ store := [SVal.df { payload := 0, nrows := 1, ncols := 1, loc := "w0" }],
           calls := 0,
           nodes := [{ src := Sum.inl 0, func := fun v => v, refs := Int.ofNat 2,
                       result := Option.none }],
           metas := [], lazyMode := false },
         List.map some
           [{ dataRef := PData.de 0, meta := 0, metaOffset := 0 },
            { dataRef := PData.de 0, meta := 0, metaOffset := 0 }])
        (List.map Ev.drain [0, 1]) = some (w', ps') ∧
      w'.calls = 0 + 1 ∧
      (∀ i ∈ [0, 1], ∃ p, ps'[i]? = some (some p) ∧
        p.dataRef = PData.ref 1) ∧
      (∀ j, j ∉ ([0, 1] : List Nat) → ps'[j]? =
        (List.map some
          [{ dataRef := PData.de 0, meta := 0, metaOffset := 0 },
           { dataRef := PData.de 0, meta := 0, metaOffset := 0 }] :
            Parts)[j]?) := by
  exact at_most_once_submission
    { store := [SVal.df { payload := 0, nrows := 1, ncols := 1, loc := "w0" }],
      calls := 0,
      nodes := [{ src := Sum.inl 0, func := fun v => v, refs := Int.ofNat 2,
                  result := Option.none }],
      metas := [], lazyMode := false }
    0 0 (fun v => v)
    { payload := 0, nrows := 1, ncols := 1, loc := "w0" }
    [{ dataRef := PData.de 0, meta := 0, metaOffset := 0 },
     { dataRef := PData.de 0, meta := 0, metaOffset := 0 }]
    [0, 1] rfl rfl
    (by
      intro p hp
      rcases List.mem_cons.mp hp with h | h
      · rw [h]
      · rcases List.mem_cons.mp h with h2 | h2
        · rw [h2]
        · cases h2)
    (by
      intro i hi
      rcases List.mem_cons.mp hi with h | h
      · subst h
        simp
      · rcases List.mem_cons.mp h with h2 | h2
        · subst h2
          simp
        · cases h2)
    (by intro h; cases h)

/-- Witness for C6: a concrete partition with cached length 7 and width 4. -/
theorem mask_full_slice_aliases_witness :
    ∃ w' p',
      maskPart
        { store := [SVal.df { payload := 0, nrows := 7, ncols := 4, loc := "w0" }],
          calls := 0, nodes := [],
          metas := [[MetaVal.intVal 7, MetaVal.intVal 4, MetaVal.none]],
          lazyMode := false }
        { dataRef := .ref 0, meta := 0, metaOffset := 0 } .sliceAll .sliceAll =
        (w', p') ∧
      lengthCache w' p' =
        lengthCache
          { store := [SVal.df { payload := 0, nrows := 7, ncols := 4, loc := "w0" }],
            calls := 0, nodes := [],
            metas := [[MetaVal.intVal 7, MetaVal.intVal 4, MetaVal.none]],
            lazyMode := false }
          { dataRef := .ref 0, meta := 0, metaOffset := 0 } ∧
      widthCache w' p' =
        widthCache
          { store := [SVal.df { payload := 0, nrows := 7, ncols := 4, loc := "w0" }],
            calls := 0, nodes := [],
            metas := [[MetaVal.intVal 7, MetaVal.intVal 4, MetaVal.none]],
            lazyMode := false }
          { dataRef := .ref 0, meta := 0, metaOffset := 0 } ∧
      w'.calls = 0 ∧
      w'.store = [SVal.df { payload := 0, nrows := 7, ncols := 4, loc := "w0" }] := by
  exact mask_full_slice_aliases _ _
    [MetaVal.intVal 7, MetaVal.intVal 4, MetaVal.none] rfl (by simp)


/-- Index lookup in the lazily built chain arena. -/
theorem chainNodesAux_getElem (h0 : Handle) (gs : List Fn) (i j : Nat) :
    (chainNodesAux h0 i gs)[j]? = (gs[j]?).map (fun g =>
      { src := if i + j = 0 then Sum.inl h0 else Sum.inr (i + j - 1), func := g,
        refs := 1, result := Option.none }) := by
  induction gs generalizing i j with
  | nil => simp [chainNodesAux]
  | cons g gs ih =>
    cases j with
    | zero => simp [chainNodesAux]
    | succ j =>
      rw [chainNodesAux]
      rw [List.getElem?_cons_succ, List.getElem?_cons_succ, ih (i + 1) j]
      have harith : i + 1 + j = i + (j + 1) := by omega
      rw [harith]

/-- Length of the chain arena. -/
theorem chainNodesAux_length (h0 : Handle) (gs : List Fn) (i : Nat) :
    (chainNodesAux h0 i gs).length = gs.length := by
  induction gs generalizing i with
  | nil => rfl
  | cons g gs ih =>
    rw [chainNodesAux]
    simp [ih]

/-- Appending one more deferred call extends the chain arena by one node. -/
theorem chainNodesAux_append (h0 : Handle) (gs : List Fn) (g : Fn) (i : Nat) :
    chainNodesAux h0 i (gs ++ [g]) = chainNodesAux h0 i gs ++
      [{ src := if i + gs.length = 0 then Sum.inl h0 else Sum.inr (i + gs.length - 1),
         func := g, refs := 1, result := Option.none }] := by
  induction gs generalizing i with
  | nil => simp [chainNodesAux]
  | cons g2 gs ih =>
    rw [List.cons_append, chainNodesAux, chainNodesAux, ih (i + 1)]
    have harith : i + 1 + gs.length = i + (g2 :: gs).length := by simp; omega
    rw [harith]
    simp

/-- The pipeline value after one more function. -/
theorem applyList_take_succ (fs : List Fn) (n : Nat) (g : Fn) (v : Value)
    (hg : fs[n]? = some g) :
    applyList (fs.take (n + 1)) v = g (applyList (fs.take n) v) := by
  have htake : fs.take (n + 1) = fs.take n ++ [g] := by
    rcases List.getElem?_eq_some_iff.mp hg with ⟨hlt, heq⟩
    rw [List.take_succ]
    rw [List.getElem?_eq_getElem hlt, heq]
    rfl
  rw [htake, applyList, List.foldl_append]
  rfl

/-- Executing the last node of an unsubmitted chain yields the pipeline
value: the source chain is resolved recursively, each node submitted once,
and nodes beyond the executed one are untouched. -/
theorem execChain (h0 : Handle) (v : Value) (fs : List Fn) :
    ∀ (n : Nat) (W : World),
      (∀ j, j ≤ n → (W.nodes[j]? = (fs[j]?).map (fun g =>
        { src := if j = 0 then Sum.inl h0 else Sum.inr (j - 1), func := g,
          refs := 1, result := Option.none }))) →
      n < fs.length →
      W.store[h0]? = some (.df v) →
      ∃ w' h' mid, execNode (n + 1) W n = some (w', h', mid, 0) ∧
        w'.store[h']? = some (.df (applyList (fs.take (n + 1)) v)) ∧
        (∀ j, n < j → w'.nodes[j]? = W.nodes[j]?) := by
  intro n
  induction n with
  | zero =>
    intro W hchain hlt hv
    obtain ⟨g, hg⟩ : ∃ g, fs[0]? = some g := by
      rcases List.getElem?_eq_some_iff.mpr ⟨hlt, rfl⟩ with h
      exact ⟨fs[0], h⟩
    have hnode : W.nodes[0]? = some { src := Sum.inl h0, func := g, refs := 1, result := Option.none } := by
      rw [hchain 0 (by omega), hg]
      rfl
    have he : execNode (0 + 1) W 0 =
        some ({ W with
                  store := W.store ++ [SVal.df (g v)],
                  calls := W.calls + 1,
                  metas := W.metas ++ [[MetaVal.intVal (g v).nrows, MetaVal.intVal (g v).ncols, MetaVal.strVal (g v).loc]],
                  nodes := W.nodes.set 0 { src := Sum.inl h0, func := g, refs := 1, result := some (W.store.length, W.metas.length, 0) } },
              W.store.length, W.metas.length, 0) := by
      simp only [execNode, hnode, hv]
    refine ⟨_, _, _, he, ?_, ?_⟩
    · show (W.store ++ [SVal.df (g v)])[W.store.length]? = _
      rw [List.getElem?_concat_length]
      have hgv : applyList (fs.take (0 + 1)) v = g v := by
        have h2 := applyList_take_succ fs 0 g v hg
        simpa [applyList] using h2
      rw [hgv]
    · intro j hj
      exact List.getElem?_set_ne (by omega)
  | succ n ih =>
    intro W hchain hlt hv
    obtain ⟨g, hg⟩ : ∃ g, fs[n + 1]? = some g := by
      rcases List.getElem?_eq_some_iff.mpr ⟨hlt, rfl⟩ with h
      exact ⟨fs[n + 1], h⟩
    have hnode : W.nodes[n + 1]? = some { src := Sum.inr n, func := g, refs := 1, result := Option.none } := by
      rw [hchain (n + 1) (by omega), hg]
      rfl
    obtain ⟨w1, h1, mid1, hexec1, hval1, huntouched1⟩ :=
      ih W (fun j hj => hchain j (by omega)) (by omega) hv
    have hnode1 : w1.nodes[n + 1]? = some { src := Sum.inr n, func := g, refs := 1, result := Option.none } := by
      rw [huntouched1 (n + 1) (by omega)]
      exact hnode
    have he : execNode (n + 1 + 1) W (n + 1) =
        some ({ w1 with
                  store := w1.store ++ [SVal.df (g (applyList (fs.take (n + 1)) v))],
                  calls := w1.calls + 1,
                  metas := w1.metas ++ [[MetaVal.intVal (g (applyList (fs.take (n + 1)) v)).nrows, MetaVal.intVal (g (applyList (fs.take (n + 1)) v)).ncols, MetaVal.strVal (g (applyList (fs.take (n + 1)) v)).loc]],
                  nodes := w1.nodes.set (n + 1) { src := Sum.inr n, func := g, refs := 1, result := some (w1.store.length, w1.metas.length, 0) } },
              w1.store.length, w1.metas.length, 0) := by
      rw [execNode, hnode]
      simp only [hexec1, Option.map_some', hval1, hnode1]
    refine ⟨_, _, _, he, ?_, ?_⟩
    · show (w1.store ++ [SVal.df (g (applyList (fs.take (n + 1)) v))])[w1.store.length]? = _
      rw [List.getElem?_concat_length]
      rw [applyList_take_succ fs (n + 1) g v hg]
    · intro j hj
      show ((w1.nodes.set (n + 1) _)[j]?) = W.nodes[j]?
      rw [List.getElem?_set_ne (by omega), huntouched1 j (by omega)]



/-- Splitting an apply run at the last call. -/
theorem runApplies_append (w : World) (p : Partition) (gs : List Fn) (g : Fn) :
    runApplies w p (gs ++ [g]) =
      (runApplies w p gs).bind (fun wp => applyPart wp.1 wp.2 g) := by
  rw [runApplies, runApplies, List.foldlM_append]
  cases gs.foldlM (fun wp f => applyPart wp.1 wp.2 f) (w, p) with
  | none => rfl
  | some wp =>
    show (List.foldlM (fun (wp : World × Partition) f => applyPart wp.1 wp.2 f) wp [g] :
        Option (World × Partition)) =
      (some wp).bind (fun wp => applyPart wp.1 wp.2 g)
    rw [List.foldlM_cons, Option.some_bind]
    cases applyPart wp.1 wp.2 g with
    | none => rfl
    | some x => rfl

/-- ref_count adjustments never touch the store. -/
theorem bumpRef_store (w : World) (id : Nat) (d : Int) :
    (bumpRef w id d).store = w.store := by
  rw [bumpRef]
  cases w.nodes[id]? with
  | none => rfl
  | some nd => rfl

/-- The exact state after a lazy apply run from a resolved partition over an
empty node arena: the chain of deferred nodes, one fresh (empty) meta list
per call, untouched store and call counter, and the final partition wrapping
the last node. -/
theorem lazy_run_shape (s0 : List SVal) (c0 : Nat) (m0 : List (List MetaVal))
    (p0 : Partition) (h0 : Handle) (hp0 : p0.dataRef = .ref h0) (fs : List Fn) :
    runApplies { store := s0, calls := c0, nodes := [], metas := m0, lazyMode := true } p0 fs =
      some ({ store := s0, calls := c0, nodes := chainNodesAux h0 0 fs,
              metas := m0 ++ List.replicate fs.length [MetaVal.none, MetaVal.none, MetaVal.none],
              lazyMode := true },
            if fs.length = 0 then p0
            else { dataRef := .de (fs.length - 1), meta := m0.length + (fs.length - 1), metaOffset := 0 }) := by
  induction fs using List.reverseRecOn with
  | nil => simp [runApplies, chainNodesAux]
  | append_singleton gs g ih =>
    rw [runApplies_append, ih]
    rw [Option.some_bind]
    cases hgs : gs with
    | nil =>
      simp only [List.length_nil, if_pos rfl]
      show applyPart _ p0 g = _
      rw [applyPart]
      rw [if_pos rfl]
      simp only [mkPartDims, incIfDe, bumpRef, chainNodesAux, hp0, srcOf]
      simp [chainNodesAux]
    | cons g2 gs2 =>
      have hlen : (g2 :: gs2).length ≠ 0 := by simp
      simp only [if_neg hlen]
      have happly : applyPart
          { store := s0, calls := c0, nodes := chainNodesAux h0 0 (g2 :: gs2),
            metas := m0 ++ List.replicate (g2 :: gs2).length [MetaVal.none, MetaVal.none, MetaVal.none],
            lazyMode := true }
          { dataRef := PData.de ((g2 :: gs2).length - 1),
            meta := m0.length + ((g2 :: gs2).length - 1), metaOffset := 0 } g = some
          ({ store := s0, calls := c0,
             nodes := chainNodesAux h0 0 (g2 :: gs2) ++ [{ src := Sum.inr ((g2 :: gs2).length - 1), func := g, refs := 1, result := Option.none }],
             metas := (m0 ++ List.replicate (g2 :: gs2).length [MetaVal.none, MetaVal.none, MetaVal.none]) ++ [[MetaVal.none, MetaVal.none, MetaVal.none]],
             lazyMode := true },
           { dataRef := PData.de (chainNodesAux h0 0 (g2 :: gs2)).length,
             meta := (m0 ++ List.replicate (g2 :: gs2).length [MetaVal.none, MetaVal.none, MetaVal.none]).length,
             metaOffset := 0 }) := by
        rw [applyPart]
        rw [if_pos rfl]
        simp only [srcOf, mkPartDims, incIfDe, bumpRef, List.getElem?_concat_length]
        rw [List.set_append]
        rw [if_neg (by omega)]
        simp only [Nat.sub_self, List.set_cons_zero]
        norm_num
      rw [happly]
      rw [chainNodesAux_append]
      rw [if_neg (by simp)]
      rw [chainNodesAux_length]
      simp only [List.length_append, List.length_cons, List.length_nil,
        List.length_replicate, List.replicate_succ', List.append_assoc,
        Nat.zero_add, Nat.add_sub_cancel]
      have harith : (gs2.length + 1 + 1 : Nat) - 1 = gs2.length + 1 := by omega
      have harith2 : (gs2.length + 1 : Nat) - 1 = gs2.length := by omega
      simp [harith, harith2]

/-- An eager apply run from a resolved partition takes the flat fast path at
every step and accumulates the pipeline value in the store. -/
theorem eager_run (fs : List Fn) : ∀ (w : World) (p : Partition) (h : Handle)
    (v : Value), w.lazyMode = false → p.dataRef = .ref h →
    w.store[h]? = some (.df v) →
    ∃ w' p' h', runApplies w p fs = some (w', p') ∧ w'.lazyMode = false ∧
      p'.dataRef = .ref h' ∧ w'.store[h']? = some (.df (applyList fs v)) := by
  induction fs with
  | nil =>
    intro w p h v hm hp hv
    exact ⟨w, p, h, rfl, hm, hp, by simpa [applyList] using hv⟩
  | cons f fs ih =>
    intro w p h v hm hp hv
    have hstep : applyPart w p f = some
        ({ store := w.store ++ [SVal.df (f v)], calls := w.calls + 1,
           nodes := w.nodes,
           metas := w.metas ++ [[MetaVal.intVal (f v).nrows, MetaVal.intVal (f v).ncols, MetaVal.strVal (f v).loc]],
           lazyMode := w.lazyMode },
         { dataRef := .ref w.store.length, meta := w.metas.length, metaOffset := 0 }) := by
      rw [applyPart, if_neg (by rw [hm]; simp), hp]
      simp only [remoteExecFunc, hv, mkPartDims, incIfDe]
    have hcons : runApplies w p (f :: fs) =
        (applyPart w p f).bind (fun wp => runApplies wp.1 wp.2 fs) := by
      rw [runApplies, List.foldlM_cons]
      cases applyPart w p f with
      | none => rfl
      | some x => rfl
    rw [hcons, hstep, Option.some_bind]
    obtain ⟨w', p', h', hrun, hm', hp', hv'⟩ := ih
      { store := w.store ++ [SVal.df (f v)], calls := w.calls + 1,
        nodes := w.nodes,
        metas := w.metas ++ [[MetaVal.intVal (f v).nrows, MetaVal.intVal (f v).ncols, MetaVal.strVal (f v).loc]],
        lazyMode := w.lazyMode }
      { dataRef := .ref w.store.length, meta := w.metas.length, metaOffset := 0 }
      w.store.length (f v) hm rfl (by
        show (w.store ++ [SVal.df (f v)])[w.store.length]? = _
        rw [List.getElem?_concat_length])
    exact ⟨w', p', h', hrun, hm', hp', by
      rw [hv']
      rfl⟩

/-- C3: for a fixed pipeline of pure functions over a stored block, the
final materialized value is identical whether the global mode is eager
(each apply submitted immediately over the resolved handle) or lazy (the
whole chain is built unsent and drained once at the end); both equal the
pure fold of the pipeline over the initial block. -/
theorem lazy_eager_equivalence (s0 : List SVal) (c0 : Nat)
    (m0 : List (List MetaVal)) (v : Value) (fs : List Fn) :
    (∃ wE pE,
      runApplies (putPart { store := s0, calls := c0, nodes := [], metas := m0, lazyMode := false } v).1
        (putPart { store := s0, calls := c0, nodes := [], metas := m0, lazyMode := false } v).2 fs =
        some (wE, pE) ∧
      materializePart wE pE = some (.df (applyList fs v))) ∧
    (∃ wL pL,
      runApplies (putPart { store := s0, calls := c0, nodes := [], metas := m0, lazyMode := true } v).1
        (putPart { store := s0, calls := c0, nodes := [], metas := m0, lazyMode := true } v).2 fs =
        some (wL, pL) ∧
      materializePart wL pL = some (.df (applyList fs v))) := by
  constructor
  · obtain ⟨w', p', h', hrun, hm', hp', hv'⟩ := eager_run fs
      { store := s0 ++ [SVal.df v], calls := c0, nodes := [],
        metas := m0 ++ [[MetaVal.intVal v.nrows, MetaVal.intVal v.ncols, MetaVal.none]],
        lazyMode := false }
      { dataRef := .ref s0.length, meta := m0.length, metaOffset := 0 }
      s0.length v rfl rfl (by
        show (s0 ++ [SVal.df v])[s0.length]? = _
        rw [List.getElem?_concat_length])
    refine ⟨w', p', hrun, ?_⟩
    rw [materializePart, drainPart, hp', Option.some_bind, hp']
    exact hv'
  · rcases hfs : fs with _ | ⟨f, fs2⟩
    · refine ⟨_, _, lazy_run_shape (s0 ++ [SVal.df v]) c0
        (m0 ++ [[MetaVal.intVal v.nrows, MetaVal.intVal v.ncols, MetaVal.none]])
        { dataRef := .ref s0.length, meta := m0.length, metaOffset := 0 }
        s0.length rfl [], ?_⟩
      simp only [List.length_nil, if_pos rfl]
      rw [materializePart]
      show (s0 ++ [SVal.df v])[s0.length]? = _
      rw [List.getElem?_concat_length]
      rfl
    · have hshape := lazy_run_shape (s0 ++ [SVal.df v]) c0
        (m0 ++ [[MetaVal.intVal v.nrows, MetaVal.intVal v.ncols, MetaVal.none]])
        { dataRef := .ref s0.length, meta := m0.length, metaOffset := 0 }
        s0.length rfl (f :: fs2)
      have hlen : (f :: fs2).length ≠ 0 := by simp
      rw [if_neg hlen] at hshape
      refine ⟨_, _, hshape, ?_⟩
      have hn : (f :: fs2).length - 1 < (f :: fs2).length := by simp
      obtain ⟨w', h', mid, hexec, hval, _⟩ := execChain s0.length v (f :: fs2)
        ((f :: fs2).length - 1)
        { store := s0 ++ [SVal.df v], calls := c0,
          nodes := chainNodesAux s0.length 0 (f :: fs2),
          metas := (m0 ++ [[MetaVal.intVal v.nrows, MetaVal.intVal v.ncols, MetaVal.none]]) ++
            List.replicate (f :: fs2).length [MetaVal.none, MetaVal.none, MetaVal.none],
          lazyMode := true }
        (by
          intro j hj
          show (chainNodesAux s0.length 0 (f :: fs2))[j]? = _
          rw [chainNodesAux_getElem]
          simp only [Nat.zero_add])
        hn
        (by
          show (s0 ++ [SVal.df v])[s0.length]? = _
          rw [List.getElem?_concat_length])
      rw [materializePart, drainPart]
      simp only [hexec, Option.some_bind]
      show (bumpRef w' ((f :: fs2).length - 1) (-1)).store[h']? = _
      rw [bumpRef_store, hval]
      rw [show ((f :: fs2).length - 1 + 1) = (f :: fs2).length by simp]
      rw [List.take_length]



/-- Accumulating decimal parsing splits over append. -/
theorem parseNatAux_append (acc : Nat) (xs ys : List Nat) :
    parseNatAux acc (xs ++ ys) =
      (parseNatAux acc xs).bind (fun a => parseNatAux a ys) := by
  induction xs generalizing acc with
  | nil => rfl
  | cons c cs ih =>
    rw [List.cons_append, parseNatAux, parseNatAux]
    cases digitVal c with
    | none => rfl
    | some d => exact ih (acc * 10 + d)

/-- The digit string of a natural number is never empty. -/
theorem natDigits_ne_nil (n : Nat) : natDigits n ≠ [] := by
  rw [natDigits]
  split
  · simp
  · simp

/-- Every byte of a digit string is an ASCII digit. -/
theorem natDigits_digits (n : Nat) : ∀ c ∈ natDigits n, 48 ≤ c ∧ c ≤ 57 := by
  induction n using Nat.strong_induction_on with
  | _ n ih =>
    rw [natDigits]
    split
    next h =>
      intro c hc
      simp at hc
      omega
    next h =>
      intro c hc
      rw [List.mem_append] at hc
      rcases hc with hc | hc
      · exact ih (n / 10) (Nat.div_lt_self (by omega) (by omega)) c hc
      · simp at hc
        have := Nat.mod_lt n (show 0 < 10 by omega)
        omega

/-- Parsing the digit string of n yields n, shifted past the accumulator. -/
theorem parseNatAux_natDigits (n : Nat) : ∀ acc,
    parseNatAux acc (natDigits n) =
      some (acc * 10 ^ (natDigits n).length + n) := by
  induction n using Nat.strong_induction_on with
  | _ n ih =>
    intro acc
    rw [natDigits]
    split
    next h =>
      simp only [parseNatAux, digitVal]
      rw [if_pos (by simp; omega)]
      simp only [parseNatAux]
      simp
    next h =>
      rw [parseNatAux_append, ih (n / 10) (Nat.div_lt_self (by omega) (by omega)) acc]
      rw [Option.some_bind]
      simp only [parseNatAux, digitVal]
      rw [if_pos (by simp; omega)]
      dsimp only
      have hlen : (natDigits (n / 10) ++ [48 + n % 10]).length =
          (natDigits (n / 10)).length + 1 := by simp
      rw [hlen, pow_succ]
      have hd : 48 + n % 10 - 48 = n % 10 := by omega
      rw [hd]
      have hnm : n / 10 * 10 + n % 10 = n := by omega
      have halg : (acc * 10 ^ (natDigits (n / 10)).length + n / 10) * 10 + n % 10 =
          acc * (10 ^ (natDigits (n / 10)).length * 10) + (n / 10 * 10 + n % 10) := by
        ring
      rw [halg, hnm]

/-- Parsing the full digit string of n yields n. -/
theorem parseNatBytes_natDigits (n : Nat) : parseNatBytes (natDigits n) = some n := by
  have h := parseNatAux_natDigits n 0
  cases hd : natDigits n with
  | nil => exact absurd hd (natDigits_ne_nil n)
  | cons c cs =>
    rw [hd] at h
    simp only [parseNatBytes, h]
    simp

/-- Round trip of the int representation. -/
theorem parseIntBytes_intRepr (n : Int) : parseIntBytes (intRepr n) = some n := by
  rw [intRepr]
  split
  next h =>
    rw [parseIntBytes, if_pos rfl, parseNatBytes_natDigits]
    simp only [Option.map_some', Option.some.injEq, Int.ofNat_eq_natCast]
    omega
  next h =>
    have hpn := parseNatBytes_natDigits n.toNat
    cases hd : natDigits n.toNat with
    | nil => exact absurd hd (natDigits_ne_nil _)
    | cons c cs =>
      have hdig := natDigits_digits n.toNat c (by rw [hd]; simp)
      rw [hd] at hpn
      simp only [parseIntBytes]
      rw [if_neg (by omega)]
      rw [hpn]
      simp only [Option.map_some', Option.some.injEq, Int.ofNat_eq_natCast]
      omega

/-- Decoding inverts the alphabet lookup: every 6-bit unit reads back as
itself, leaving the remaining stream untouched. -/
theorem readUnit_baseEnc (v : Nat) (hv : v < 64) (rest : List Nat) :
    readUnit (baseEnc v ++ rest) = some (.unit v, rest) := by
  interval_cases v <;> simp [baseEnc, readUnit, baseDec]

/-- Every byte of an alphabet unit is alphanumeric or the underscore. -/
theorem baseEnc_word (v : Nat) : ∀ b ∈ baseEnc v, isWordByte b = true := by
  intro b hb
  rw [baseEnc] at hb
  split at hb
  · simp at hb; subst hb; simp [isWordByte, isAlphanumByte]; omega
  · split at hb
    · simp at hb; subst hb; simp [isWordByte, isAlphanumByte]; omega
    · split at hb
      · simp at hb; subst hb; simp [isWordByte, isAlphanumByte]; omega
      · split at hb
        · simp at hb; rcases hb with hb | hb <;> subst hb <;> decide
        · simp at hb; rcases hb with hb | hb <;> subst hb <;> decide

/-- An alphabet unit is nonempty, holds no 95 83 pair, and does not end in
the byte 95. -/
theorem baseEnc_sep (v : Nat) :
    baseEnc v ≠ [] ∧ hasPair 95 83 (baseEnc v) = false ∧
      (baseEnc v).getLast? ≠ some 95 := by
  rw [baseEnc]
  split
  · refine ⟨by simp, rfl, ?_⟩; simp; omega
  · split
    · refine ⟨by simp, rfl, ?_⟩; simp; omega
    · split
      · refine ⟨by simp, rfl, ?_⟩; simp; omega
      · split
        · exact ⟨by simp, rfl, by decide⟩
        · exact ⟨by simp, rfl, by decide⟩

/-- Pair-freeness is preserved by append when no pair spans the junction. -/
theorem hasPair_append (x y : Nat) (l1 l2 : List Nat)
    (h1 : hasPair x y l1 = false) (h2 : hasPair x y l2 = false)
    (hj : l1.getLast? ≠ some x ∨ l2.head? ≠ some y) :
    hasPair x y (l1 ++ l2) = false := by
  induction l1 with
  | nil => exact h2
  | cons a t ih =>
    cases t with
    | nil =>
      cases l2 with
      | nil => rfl
      | cons b l2m =>
        rw [List.singleton_append, hasPair]
        have hab : ¬(a = x ∧ b = y) := by
          rcases hj with hj | hj
          · intro hc; exact hj (by simp [hc.1])
          · intro hc; exact hj (by simp [hc.2])
        simp only [Bool.or_eq_false_iff, decide_eq_false_iff_not,
          Bool.and_eq_false_iff]
        constructor
        · by_cases hax : a = x
          · right; intro hc; exact hab ⟨hax, hc⟩
          · left; exact hax
        · exact h2
    | cons c t2 =>
      rw [List.cons_append, List.cons_append, hasPair]
      rw [hasPair] at h1
      simp only [Bool.or_eq_false_iff, Bool.and_eq_false_iff,
        decide_eq_false_iff_not] at h1 ⊢
      refine ⟨h1.1, ?_⟩
      have := ih h1.2 (by
        rcases hj with hj | hj
        · left; rw [List.getLast?_cons_cons] at hj; exact hj
        · right; exact hj)
      rw [List.cons_append] at this
      exact this

/-- A pair-free prefix is skipped: the split lands on the explicit pair just
after it (the two pair bytes differing rules out a junction pair). -/
theorem splitFirstPair_append (x y : Nat) (hxy : x ≠ y) (pre tail : List Nat)
    (hp : hasPair x y pre = false) :
    splitFirstPair x y (pre ++ x :: y :: tail) = some (pre, x :: y :: tail) := by
  induction pre with
  | nil => rw [List.nil_append, splitFirstPair]; simp
  | cons a t ih =>
    cases t with
    | nil =>
      rw [List.singleton_append, splitFirstPair]
      rw [if_neg (by rintro ⟨h1, h2⟩; exact hxy h2)]
      have h0 : splitFirstPair x y (([] : List Nat) ++ x :: y :: tail) =
          some ([], x :: y :: tail) := ih rfl
      rw [List.nil_append] at h0
      rw [h0]
    | cons c t2 =>
      rw [List.cons_append, List.cons_append, splitFirstPair]
      rw [hasPair] at hp
      simp only [Bool.or_eq_false_iff, Bool.and_eq_false_iff,
        decide_eq_false_iff_not] at hp
      rw [if_neg (by rintro ⟨h1, h2⟩; rcases hp.1 with h | h; exact h h1; exact h h2)]
      have := ih hp.2
      rw [List.cons_append] at this
      rw [this]

/-- A pair-free string is not split at all. -/
theorem splitFirstPair_none (x y : Nat) (s : List Nat)
    (h : hasPair x y s = false) : splitFirstPair x y s = Option.none := by
  induction s with
  | nil => rfl
  | cons a t ih =>
    cases t with
    | nil => rfl
    | cons b t2 =>
      rw [splitFirstPair]
      rw [hasPair] at h
      simp only [Bool.or_eq_false_iff, Bool.and_eq_false_iff,
        decide_eq_false_iff_not] at h
      rw [if_neg (by rintro ⟨h1, h2⟩; rcases h.1 with hh | hh; exact hh h1; exact hh h2)]
      rw [ih h.2]

/-- getLast? looks past an appended prefix when the suffix is nonempty. -/
theorem getLast?_append_ne (l1 : List Nat) (b : Nat) (t : List Nat) :
    (l1 ++ b :: t).getLast? = (b :: t).getLast? := by
  induction l1 with
  | nil => rfl
  | cons a l ih =>
    rw [List.cons_append]
    cases hl : l ++ b :: t with
    | nil => simp at hl
    | cons c u => rw [List.getLast?_cons_cons, ← hl, ih]

/-- The separator-safety pack (no 95 83 pair, no trailing 95) is closed
under append. -/
theorem sepPack_append (l1 l2 : List Nat)
    (h1 : hasPair 95 83 l1 = false) (g1 : l1.getLast? ≠ some 95)
    (h2 : hasPair 95 83 l2 = false) (g2 : l2.getLast? ≠ some 95) :
    hasPair 95 83 (l1 ++ l2) = false ∧ (l1 ++ l2).getLast? ≠ some 95 := by
  refine ⟨hasPair_append _ _ _ _ h1 h2 (Or.inl g1), ?_⟩
  cases l2 with
  | nil => simpa using g1
  | cons b t => rw [getLast?_append_ne]; exact g2

/-- An alphabet unit has at least one character. -/
theorem baseEnc_len (v : Nat) : 1 ≤ (baseEnc v).length :=
  List.length_pos.mpr (baseEnc_sep v).1

/-- Structure of the quoted unit stream: at least one unit character per
input byte, a final-chunk count of at most 3 (and at least 1 for nonempty
input, with a nonempty stream), no 95 83 pair, and no trailing byte 95. -/
theorem quoteChunks_facts (bs : List Nat) :
    bs.length ≤ (quoteChunks bs).1.length ∧
    (quoteChunks bs).2 ≤ 3 ∧
    (bs ≠ [] → (1 ≤ (quoteChunks bs).2 ∧ (quoteChunks bs).1 ≠ [])) ∧
    hasPair 95 83 (quoteChunks bs).1 = false ∧
    (quoteChunks bs).1.getLast? ≠ some 95 := by
  have key : ∀ (n : Nat) (bs : List Nat), bs.length ≤ n →
      bs.length ≤ (quoteChunks bs).1.length ∧
      (quoteChunks bs).2 ≤ 3 ∧
      (bs ≠ [] → (1 ≤ (quoteChunks bs).2 ∧ (quoteChunks bs).1 ≠ [])) ∧
      hasPair 95 83 (quoteChunks bs).1 = false ∧
      (quoteChunks bs).1.getLast? ≠ some 95 := by
    intro n
    induction n with
    | zero =>
      intro bs hlen
      cases bs with
      | nil =>
        refine ⟨by simp [quoteChunks], by simp [quoteChunks],
          fun h => absurd rfl h, by simp [quoteChunks, hasPair],
          by simp [quoteChunks]⟩
      | cons a t => simp at hlen
    | succ n ihn =>
      intro bs hlen
      cases bs with
      | nil =>
        refine ⟨by simp [quoteChunks], by simp [quoteChunks],
          fun h => absurd rfl h, by simp [quoteChunks, hasPair],
          by simp [quoteChunks]⟩
      | cons b0 t0 =>
      cases t0 with
      | nil =>
        simp only [quoteChunks]
        have p := sepPack_append _ _ (baseEnc_sep (b0 * 65536 / 262144 % 64)).2.1
          (baseEnc_sep (b0 * 65536 / 262144 % 64)).2.2
          (baseEnc_sep (b0 * 65536 / 4096 % 64)).2.1
          (baseEnc_sep (b0 * 65536 / 4096 % 64)).2.2
        refine ⟨?_, by omega, fun _ => ⟨by omega, ?_⟩, p.1, p.2⟩
        · have h0 := baseEnc_len (b0 * 65536 / 262144 % 64)
          have h1 := baseEnc_len (b0 * 65536 / 4096 % 64)
          simp only [List.length_append, List.length_cons, List.length_nil]
          omega
        · intro hc
          rw [List.append_eq_nil] at hc
          exact (baseEnc_sep _).1 hc.1
      | cons b1 t1 =>
      cases t1 with
      | nil =>
        simp only [quoteChunks]
        have p01 := sepPack_append _ _
          (baseEnc_sep ((b0 * 65536 + b1 * 256) / 262144 % 64)).2.1
          (baseEnc_sep ((b0 * 65536 + b1 * 256) / 262144 % 64)).2.2
          (baseEnc_sep ((b0 * 65536 + b1 * 256) / 4096 % 64)).2.1
          (baseEnc_sep ((b0 * 65536 + b1 * 256) / 4096 % 64)).2.2
        have p := sepPack_append _ _ p01.1 p01.2
          (baseEnc_sep ((b0 * 65536 + b1 * 256) / 64 % 64)).2.1
          (baseEnc_sep ((b0 * 65536 + b1 * 256) / 64 % 64)).2.2
        refine ⟨?_, by omega, fun _ => ⟨by omega, ?_⟩, p.1, p.2⟩
        · have h0 := baseEnc_len ((b0 * 65536 + b1 * 256) / 262144 % 64)
          have h1 := baseEnc_len ((b0 * 65536 + b1 * 256) / 4096 % 64)
          have h2 := baseEnc_len ((b0 * 65536 + b1 * 256) / 64 % 64)
          simp only [List.length_append, List.length_cons, List.length_nil]
          omega
        · intro hc
          rw [List.append_eq_nil, List.append_eq_nil] at hc
          exact (baseEnc_sep _).1 hc.1.1
      | cons b2 t2 =>
      cases t2 with
      | nil =>
        simp only [quoteChunks]
        have p01 := sepPack_append _ _
          (baseEnc_sep ((b0 * 65536 + b1 * 256 + b2) / 262144 % 64)).2.1
          (baseEnc_sep ((b0 * 65536 + b1 * 256 + b2) / 262144 % 64)).2.2
          (baseEnc_sep ((b0 * 65536 + b1 * 256 + b2) / 4096 % 64)).2.1
          (baseEnc_sep ((b0 * 65536 + b1 * 256 + b2) / 4096 % 64)).2.2
        have p012 := sepPack_append _ _ p01.1 p01.2
          (baseEnc_sep ((b0 * 65536 + b1 * 256 + b2) / 64 % 64)).2.1
          (baseEnc_sep ((b0 * 65536 + b1 * 256 + b2) / 64 % 64)).2.2
        have p := sepPack_append _ _ p012.1 p012.2
          (baseEnc_sep ((b0 * 65536 + b1 * 256 + b2) % 64)).2.1
          (baseEnc_sep ((b0 * 65536 + b1 * 256 + b2) % 64)).2.2
        refine ⟨?_, by omega, fun _ => ⟨by omega, ?_⟩, p.1, p.2⟩
        · have h0 := baseEnc_len ((b0 * 65536 + b1 * 256 + b2) / 262144 % 64)
          have h1 := baseEnc_len ((b0 * 65536 + b1 * 256 + b2) / 4096 % 64)
          have h2 := baseEnc_len ((b0 * 65536 + b1 * 256 + b2) / 64 % 64)
          have h3 := baseEnc_len ((b0 * 65536 + b1 * 256 + b2) % 64)
          simp only [List.length_append, List.length_cons, List.length_nil]
          omega
        · intro hc
          rw [List.append_eq_nil, List.append_eq_nil, List.append_eq_nil] at hc
          exact (baseEnc_sep _).1 hc.1.1.1
      | cons r rs =>
        simp only [quoteChunks]
        obtain ⟨ih1, ih2, ih3, ih4, ih5⟩ := ihn (r :: rs) (by
          simp only [List.length_cons] at hlen ⊢
          omega)
        have p01 := sepPack_append _ _
          (baseEnc_sep ((b0 * 65536 + b1 * 256 + b2) / 262144 % 64)).2.1
          (baseEnc_sep ((b0 * 65536 + b1 * 256 + b2) / 262144 % 64)).2.2
          (baseEnc_sep ((b0 * 65536 + b1 * 256 + b2) / 4096 % 64)).2.1
          (baseEnc_sep ((b0 * 65536 + b1 * 256 + b2) / 4096 % 64)).2.2
        have p012 := sepPack_append _ _ p01.1 p01.2
          (baseEnc_sep ((b0 * 65536 + b1 * 256 + b2) / 64 % 64)).2.1
          (baseEnc_sep ((b0 * 65536 + b1 * 256 + b2) / 64 % 64)).2.2
        have p0123 := sepPack_append _ _ p012.1 p012.2
          (baseEnc_sep ((b0 * 65536 + b1 * 256 + b2) % 64)).2.1
          (baseEnc_sep ((b0 * 65536 + b1 * 256 + b2) % 64)).2.2
        have p := sepPack_append _ _ p0123.1 p0123.2 ih4 ih5
        refine ⟨?_, ih2, fun _ => ⟨(ih3 (by simp)).1, ?_⟩, p.1, p.2⟩
        · have h0 := baseEnc_len ((b0 * 65536 + b1 * 256 + b2) / 262144 % 64)
          have h1 := baseEnc_len ((b0 * 65536 + b1 * 256 + b2) / 4096 % 64)
          have h2 := baseEnc_len ((b0 * 65536 + b1 * 256 + b2) / 64 % 64)
          have h3 := baseEnc_len ((b0 * 65536 + b1 * 256 + b2) % 64)
          simp only [List.length_append, List.length_cons] at ih1 ⊢
          omega
        · intro hc
          rw [List.append_eq_nil] at hc
          exact (ih3 (by simp)).2 hc.2
  exact key bs.length bs (le_refl _)

/-- Unit decoding specialised to the reduced values the quoter produces. -/
theorem readUnit_baseEnc_mod (x : Nat) (rest : List Nat) :
    readUnit (baseEnc (x % 64) ++ rest) = some (.unit (x % 64), rest) :=
  readUnit_baseEnc _ (Nat.mod_lt _ (by omega)) rest

/-- The chunk loop of _unquote inverts the chunk loop of _quote: decoding
the quoted units of a nonempty byte string, followed by the final-chunk
marker, recovers the bytes and leaves the remaining stream. -/
theorem unquoteLoop_quote :
    ∀ (n : Nat) (bs : List Nat), bs ≠ [] → (∀ b ∈ bs, b < 256) →
    bs.length ≤ n → ∀ (rest : List Nat) (fuel : Nat), bs.length ≤ fuel →
    unquoteLoop (fuel + 1)
        ((quoteChunks bs).1 ++ 95 :: (48 + (quoteChunks bs).2) :: rest) =
      some (bs, rest) := by
  intro n
  induction n with
  | zero =>
    intro bs hne _ hlen
    cases bs with
    | nil => exact absurd rfl hne
    | cons a t => simp at hlen
  | succ n ihn =>
    intro bs hne hb hlen rest fuel hfuel
    cases bs with
    | nil => exact absurd rfl hne
    | cons b0 t0 =>
    have hb0 : b0 < 256 := hb b0 (by simp)
    cases t0 with
    | nil =>
      simp only [quoteChunks, List.append_assoc]
      rw [unquoteLoop]
      simp only [readChunk, readUnit_baseEnc_mod]
      simp [readUnit, bytesOfN, List.range_succ, List.range_zero]
      omega
    | cons b1 t1 =>
    have hb1 : b1 < 256 := hb b1 (by simp)
    cases t1 with
    | nil =>
      simp only [quoteChunks, List.append_assoc]
      rw [unquoteLoop]
      simp only [readChunk, readUnit_baseEnc_mod]
      simp [readUnit, bytesOfN, List.range_succ, List.range_zero]
      omega
    | cons b2 t2 =>
    have hb2 : b2 < 256 := hb b2 (by simp)
    cases t2 with
    | nil =>
      simp only [quoteChunks, List.append_assoc]
      cases fuel with
      | zero => simp at hfuel
      | succ f =>
        rw [unquoteLoop]
        simp only [readChunk, readUnit_baseEnc_mod]
        rw [unquoteLoop]
        simp [readChunk, readUnit, bytesOfN, List.range_succ, List.range_zero]
        omega
    | cons r rs =>
      simp only [quoteChunks, List.append_assoc]
      cases fuel with
      | zero => simp at hfuel
      | succ f =>
        have hrec := ihn (r :: rs) (by simp)
          (fun b hbm => hb b (List.mem_cons_of_mem _
            (List.mem_cons_of_mem _ (List.mem_cons_of_mem _ hbm))))
          (by simp only [List.length_cons] at hlen ⊢; omega) rest f
          (by simp only [List.length_cons] at hfuel ⊢; omega)
        rw [unquoteLoop]
        simp only [readChunk, readUnit_baseEnc_mod]
        simp only [hrec]
        simp [bytesOfN, List.range_succ, List.range_zero]
        omega

/-- The head of a nonempty dropWhile fails the predicate. -/
theorem dropWhile_head_not (p : Nat → Bool) :
    ∀ (l : List Nat) (r : Nat) (t : List Nat), l.dropWhile p = r :: t →
      p r = false := by
  intro l
  induction l with
  | nil => intro r t h; simp at h
  | cons a l ih =>
    intro r t h
    rw [List.dropWhile_cons] at h
    split at h
    · exact ih _ _ h
    · next hp =>
      cases h
      simpa using hp

/-- A list without the byte 95 holds no pair starting with 95. -/
theorem no95_hasPair (y : Nat) :
    ∀ (s : List Nat), (∀ b ∈ s, b ≠ 95) → hasPair 95 y s = false := by
  intro s
  induction s with
  | nil => intro _; rfl
  | cons a t ih =>
    intro h
    cases t with
    | nil => rfl
    | cons b t2 =>
      rw [hasPair]
      simp only [Bool.or_eq_false_iff, Bool.and_eq_false_iff,
        decide_eq_false_iff_not]
      exact ⟨Or.inl (h a (by simp)),
        ih (fun c hc => h c (List.mem_cons_of_mem _ hc))⟩

/-- Alphanumeric bytes are not the underscore. -/
theorem alpha_ne_95 (b : Nat) (h : isAlphanumByte b = true) : b ≠ 95 := by
  simp [isAlphanumByte] at h
  omega

/-- encodeRuns passes an alphanumeric prefix through unchanged. -/
theorem encodeRuns_alpha_lead :
    ∀ (a r : List Nat), (∀ b ∈ a, isAlphanumByte b = true) →
    encodeRuns (a ++ r) = a ++ encodeRuns r := by
  intro a
  induction a with
  | nil => intro r _; rfl
  | cons x t ih =>
    intro r h
    rw [List.cons_append, encodeRuns]
    rw [if_pos (h x (by simp))]
    rw [ih r (fun b hbm => h b (List.mem_cons_of_mem _ hbm))]
    rfl

/-- encodeRuns of an all-alphanumeric string is the string itself. -/
theorem encodeRuns_all_alpha (s : List Nat)
    (h : ∀ b ∈ s, isAlphanumByte b = true) : encodeRuns s = s := by
  have h0 := encodeRuns_alpha_lead s [] h
  simpa [encodeRuns] using h0

/-- The find-and-unquote loop of the decoder inverts the run encoder: for any
byte string, decoding the run encoding recovers the string. -/
theorem decodeRuns_encodeRuns :
    ∀ (n : Nat) (s : List Nat), (∀ b ∈ s, b < 256) → s.length ≤ n →
    ∀ (fuel : Nat), s.length ≤ fuel →
    decodeRuns (fuel + 1) (encodeRuns s) = some s := by
  intro n
  induction n with
  | zero =>
    intro s hb hlen fuel hfuel
    have hs : s = [] := List.length_eq_zero.mp (Nat.le_zero.mp hlen)
    subst hs
    simp [encodeRuns, decodeRuns, splitFirstPair]
  | succ n ihn =>
    intro s hb hlen fuel hfuel
    cases hS0 : s.dropWhile isAlphanumByte with
    | nil =>
      have halpha : ∀ b ∈ s, isAlphanumByte b = true := by
        rw [List.dropWhile_eq_nil_iff] at hS0
        exact fun b hbm => hS0 b hbm
      rw [encodeRuns_all_alpha s halpha, decodeRuns]
      have hn := splitFirstPair_none 95 81 s
        (no95_hasPair 81 s (fun b hbm => alpha_ne_95 b (halpha b hbm)))
      simp only [hn]
    | cons r S0t =>
      have hr : isAlphanumByte r = false := dropWhile_head_not _ _ _ _ hS0
      have hsplit : s.takeWhile isAlphanumByte ++ r :: S0t = s := by
        conv_rhs => rw [← List.takeWhile_append_dropWhile isAlphanumByte s]
        rw [hS0]
      obtain ⟨Q, hQdef⟩ :
          ∃ Q, (r :: S0t).takeWhile (fun c => !isAlphanumByte c) = Q := ⟨_, rfl⟩
      obtain ⟨S, hSdef⟩ :
          ∃ S, (r :: S0t).dropWhile (fun c => !isAlphanumByte c) = S := ⟨_, rfl⟩
      have hQS : Q ++ S = r :: S0t := by
        rw [← hQdef, ← hSdef]
        exact List.takeWhile_append_dropWhile _ _
      have hQne : Q ≠ [] := by
        rw [← hQdef, List.takeWhile_cons_of_pos (by simp [hr])]
        simp
      have hQbytes : ∀ b ∈ Q, b < 256 := by
        intro b hbm
        apply hb
        rw [← hsplit]
        apply List.mem_append_right
        rw [← hQS]
        exact List.mem_append_left _ hbm
      have hSbytes : ∀ b ∈ S, b < 256 := by
        intro b hbm
        apply hb
        rw [← hsplit]
        apply List.mem_append_right
        rw [← hQS]
        exact List.mem_append_right _ hbm
      have hApre : ∀ b ∈ s.takeWhile isAlphanumByte, isAlphanumByte b = true :=
        fun b hbm => List.mem_takeWhile_imp hbm
      have henc : encodeRuns s = s.takeWhile isAlphanumByte ++
          (95 :: 81 :: ((quoteChunks Q).1 ++
            95 :: (48 + (quoteChunks Q).2) :: encodeRuns S)) := by
        conv_lhs => rw [← hsplit]
        rw [encodeRuns_alpha_lead _ _ hApre]
        rw [encodeRuns]
        rw [if_neg (by simp [hr])]
        rw [hQdef, hSdef, quoteRun]
        simp [List.append_assoc]
      have hsp := splitFirstPair_append 95 81 (by omega)
        (s.takeWhile isAlphanumByte)
        ((quoteChunks Q).1 ++ 95 :: (48 + (quoteChunks Q).2) :: encodeRuns S)
        (no95_hasPair 81 _ (fun b hbm => alpha_ne_95 b (hApre b hbm)))
      have hul := unquoteLoop_quote Q.length Q hQne hQbytes (le_refl _)
        (encodeRuns S)
        ((quoteChunks Q).1 ++
          95 :: (48 + (quoteChunks Q).2) :: encodeRuns S).length
        (by
          have hq1 := (quoteChunks_facts Q).1
          simp only [List.length_append, List.length_cons]
          omega)
      have hlenS : S.length + 1 ≤ s.length := by
        have h1 := congrArg List.length hsplit
        have h2 := congrArg List.length hQS
        have h3 : 1 ≤ Q.length := List.length_pos.mpr hQne
        simp only [List.length_append, List.length_cons] at h1 h2
        omega
      cases fuel with
      | zero =>
        rw [← hsplit] at hfuel
        simp only [List.length_append, List.length_cons] at hfuel
        omega
      | succ f =>
        have hrec := ihn S hSbytes (by omega) f (by omega)
        rw [henc, decodeRuns]
        simp only [hsp, unquoteRun, hul, hrec]
        rw [List.append_assoc, hQS, hsplit]

/-- A list without the byte 95 does not end in 95. -/
theorem no95_getLast (l : List Nat) (h : ∀ b ∈ l, b ≠ 95) :
    l.getLast? ≠ some 95 := by
  intro hc
  exact h 95 (List.mem_of_mem_getLast? hc) rfl

/-- A reserved name starts with two underscores. -/
theorem reserved_startsUnd (s : List Nat) (h : isReservedStr s = true) :
    ∃ t, s = 95 :: 95 :: t := by
  cases s with
  | nil =>
    simp [isReservedStr, pyStartsWith, IDX_COL_NAME,
      MODIN_UNNAMED_SERIES_LABEL, ROWID_COL_NAME] at h
  | cons a t =>
    cases t with
    | nil =>
      simp [isReservedStr, pyStartsWith, IDX_COL_NAME,
        MODIN_UNNAMED_SERIES_LABEL, ROWID_COL_NAME] at h
    | cons b t2 =>
      refine ⟨t2, ?_⟩
      simp [isReservedStr, pyStartsWith, IDX_COL_NAME,
        MODIN_UNNAMED_SERIES_LABEL, ROWID_COL_NAME] at h
      rcases h with ⟨h1, h2, _⟩ | ⟨h1, h2, _⟩ | ⟨h1, h2, _⟩ <;>
        subst h1 <;> subst h2 <;> rfl

/-- A string whose second byte is not an underscore is not reserved. -/
theorem isReservedStr_second (c : Nat) (hc : c ≠ 95) (t : List Nat) :
    isReservedStr (95 :: c :: t) = false := by
  simp [isReservedStr, pyStartsWith, IDX_COL_NAME,
    MODIN_UNNAMED_SERIES_LABEL, ROWID_COL_NAME, hc, Ne.symm hc]

/-- Decoding the _N tag yields None whatever follows it. -/
theorem decode_none_tag (fuel : Nat) (t : List Nat) :
    decode_col_name (fuel + 1) (95 :: 78 :: t) = some .noneV := by
  simp [decode_col_name, isReservedStr_second 78 (by omega)]

/-- Decoding the _I tag with the textual form of an integer yields it. -/
theorem decode_int_tag (fuel : Nat) (n : Int) :
    decode_col_name (fuel + 1) (95 :: 73 :: intRepr n) = some (.intV n) := by
  simp [decode_col_name, isReservedStr_second 73 (by omega), parseIntBytes_intRepr]

/-- Decoding the _E tag yields the empty string. -/
theorem decode_empty_tag (fuel : Nat) :
    decode_col_name (fuel + 1) [95, 69] = some (.strV []) := by
  simp [decode_col_name, isReservedStr_second 69 (by omega)]

/-- A reserved name decodes to itself. -/
theorem decode_reserved (fuel : Nat) (s : List Nat)
    (h : isReservedStr s = true) :
    decode_col_name (fuel + 1) s = some (.strV s) := by
  obtain ⟨t, rfl⟩ := reserved_startsUnd s h
  simp [decode_col_name, h]

/-- A quoted run holds no 95 83 pair and does not end in 95. -/
theorem quoteRun_sep (q : List Nat) :
    hasPair 95 83 (quoteRun q) = false ∧ (quoteRun q).getLast? ≠ some 95 := by
  rw [quoteRun]
  have hU := quoteChunks_facts q
  have htc := hU.2.1
  have p1 := sepPack_append [95, 81] _ (by decide) (by decide)
    hU.2.2.2.1 hU.2.2.2.2
  have p2 := sepPack_append _ [95, 48 + (quoteChunks q).2] p1.1 p1.2
    (by rw [hasPair]; simp [hasPair]; omega) (by simp; omega)
  exact p2

/-- The run encoding is at least as long as the input and holds no 95 83
pair. -/
theorem encodeRuns_struct (s : List Nat) :
    s.length ≤ (encodeRuns s).length ∧
      hasPair 95 83 (encodeRuns s) = false := by
  have key : ∀ (n : Nat) (s : List Nat), s.length ≤ n →
      s.length ≤ (encodeRuns s).length ∧
        hasPair 95 83 (encodeRuns s) = false := by
    intro n
    induction n with
    | zero =>
      intro s hlen
      have hs : s = [] := List.length_eq_zero.mp (Nat.le_zero.mp hlen)
      subst hs
      exact ⟨by simp [encodeRuns], by simp [encodeRuns, hasPair]⟩
    | succ n ihn =>
      intro s hlen
      cases hS0 : s.dropWhile isAlphanumByte with
      | nil =>
        have halpha : ∀ b ∈ s, isAlphanumByte b = true := by
          rw [List.dropWhile_eq_nil_iff] at hS0
          exact fun b hbm => hS0 b hbm
        rw [encodeRuns_all_alpha s halpha]
        exact ⟨le_refl _,
          no95_hasPair 83 s (fun b hbm => alpha_ne_95 b (halpha b hbm))⟩
      | cons r S0t =>
        have hr : isAlphanumByte r = false := dropWhile_head_not _ _ _ _ hS0
        have hsplit : s.takeWhile isAlphanumByte ++ r :: S0t = s := by
          conv_rhs => rw [← List.takeWhile_append_dropWhile isAlphanumByte s]
          rw [hS0]
        obtain ⟨Q, hQdef⟩ :
            ∃ Q, (r :: S0t).takeWhile (fun c => !isAlphanumByte c) = Q :=
          ⟨_, rfl⟩
        obtain ⟨S, hSdef⟩ :
            ∃ S, (r :: S0t).dropWhile (fun c => !isAlphanumByte c) = S :=
          ⟨_, rfl⟩
        have hQS : Q ++ S = r :: S0t := by
          rw [← hQdef, ← hSdef]
          exact List.takeWhile_append_dropWhile _ _
        have hQne : Q ≠ [] := by
          rw [← hQdef, List.takeWhile_cons_of_pos (by simp [hr])]
          simp
        have hApre : ∀ b ∈ s.takeWhile isAlphanumByte,
            isAlphanumByte b = true := fun b hbm => List.mem_takeWhile_imp hbm
        have hA95 : ∀ b ∈ s.takeWhile isAlphanumByte, b ≠ 95 :=
          fun b hbm => alpha_ne_95 b (hApre b hbm)
        have henc : encodeRuns s = s.takeWhile isAlphanumByte ++
            (quoteRun Q ++ encodeRuns S) := by
          conv_lhs => rw [← hsplit]
          rw [encodeRuns_alpha_lead _ _ hApre]
          rw [encodeRuns]
          rw [if_neg (by simp [hr])]
          rw [hQdef, hSdef]
        have hlenS : S.length + 1 ≤ s.length := by
          have h1 := congrArg List.length hsplit
          have h2 := congrArg List.length hQS
          have h3 : 1 ≤ Q.length := List.length_pos.mpr hQne
          simp only [List.length_append, List.length_cons] at h1 h2
          omega
        obtain ⟨ihl, ihp⟩ := ihn S (by omega)
        constructor
        · rw [henc]
          have hql := (quoteChunks_facts Q).1
          have h1 := congrArg List.length hsplit
          have h2 := congrArg List.length hQS
          simp only [List.length_append, List.length_cons, quoteRun]
            at h1 h2 ⊢
          omega
        · rw [henc]
          refine hasPair_append _ _ _ _ (no95_hasPair 83 _ hA95) ?_
            (Or.inl (no95_getLast _ hA95))
          exact hasPair_append _ _ _ _ (quoteRun_sep Q).1 ihp
            (Or.inl (quoteRun_sep Q).2)
  exact key s.length s (le_refl _)

/-- The run encoding of a nonempty string starts with its alphanumeric head
or with the quote marker. -/
theorem encodeRuns_head (b : Nat) (bs : List Nat) :
    (isAlphanumByte b = true ∧ encodeRuns (b :: bs) = b :: encodeRuns bs) ∨
    (isAlphanumByte b = false ∧
      ∃ t, encodeRuns (b :: bs) = 95 :: 81 :: t) := by
  by_cases hb : isAlphanumByte b = true
  · exact Or.inl ⟨hb, by rw [encodeRuns, if_pos hb]⟩
  · right
    refine ⟨by simpa using hb, ?_⟩
    rw [encodeRuns, if_neg hb, quoteRun]
    exact ⟨(quoteChunks ((b :: bs).takeWhile fun c => !isAlphanumByte c)).1 ++
      95 :: (48 + (quoteChunks
        ((b :: bs).takeWhile fun c => !isAlphanumByte c)).2) ::
        encodeRuns ((b :: bs).dropWhile fun c => !isAlphanumByte c),
      by simp⟩

/-- Decoding the run encoding of a byte string recovers the string. -/
theorem decode_encodeRuns (s : List Nat) (h256 : ∀ b ∈ s, b < 256)
    (fuel : Nat) :
    decode_col_name (fuel + 1) (encodeRuns s) = some (.strV s) := by
  have hrt : decodeRuns ((encodeRuns s).length + 1) (encodeRuns s) = some s :=
    decodeRuns_encodeRuns s.length s h256 (le_refl _) (encodeRuns s).length
      (encodeRuns_struct s).1
  cases s with
  | nil => simp [encodeRuns, decode_col_name, decodeRuns, splitFirstPair]
  | cons b bs =>
    rcases encodeRuns_head b bs with ⟨hb, heq⟩ | ⟨hb, t, heq⟩
    · rw [heq]
      simp only [decode_col_name]
      rw [if_neg (alpha_ne_95 b hb)]
      rw [← heq, hrt]
      rfl
    · rw [heq]
      simp [decode_col_name, isReservedStr_second 81 (by omega)]
      rw [← heq]
      have hflen : t.length + 1 + 1 + 1 = (encodeRuns (b :: bs)).length + 1 := by
        rw [heq]
        simp
      rw [hflen, hrt]

/-- The textual form of an integer never contains the byte 95. -/
theorem intRepr_no95 (n : Int) : ∀ b ∈ intRepr n, b ≠ 95 := by
  intro b hbm
  rw [intRepr] at hbm
  split at hbm
  · rcases List.mem_cons.mp hbm with h | h
    · omega
    · have := natDigits_digits _ _ h
      omega
  · have := natDigits_digits _ _ hbm
    omega

/-- The encoding of an admissible tuple element holds no 95 83 pair, so the
tuple separator search cannot land inside it. -/
theorem encode_scalar_sep (e : ColName) (hge : goodScalar e = true) :
    hasPair 95 83 (encode_col_name true e) = false := by
  cases e with
  | noneV => decide
  | intV n =>
    rw [encode_col_name]
    exact hasPair_append _ _ _ _ (by decide)
      (no95_hasPair 83 _ (intRepr_no95 n)) (Or.inl (by decide))
  | strV s =>
    rw [encode_col_name]
    by_cases hs : s = []
    · rw [if_pos hs]
      decide
    · rw [if_neg hs]
      by_cases hres : isReservedStr s = true
      · rw [if_pos (by simp [hres])]
        simp only [goodScalar, hres] at hge
        simp at hge
        exact hge.2
      · rw [if_neg (by simp [hres])]
        exact (encodeRuns_struct s).2
  | tup es => simp [goodScalar] at hge

/-- Decoding the encoding of an admissible tuple element recovers it, for
any positive fuel. -/
theorem decode_scalar (e : ColName) (hge : goodScalar e = true) (fuel : Nat) :
    decode_col_name (fuel + 1) (encode_col_name true e) = some e := by
  cases e with
  | noneV =>
    rw [encode_col_name]
    exact decode_none_tag fuel []
  | intV n =>
    rw [encode_col_name]
    exact decode_int_tag fuel n
  | strV s =>
    rw [encode_col_name]
    by_cases hs : s = []
    · rw [if_pos hs, hs]
      exact decode_empty_tag fuel
    · rw [if_neg hs]
      by_cases hres : isReservedStr s = true
      · rw [if_pos (by simp [hres])]
        exact decode_reserved fuel s hres
      · rw [if_neg (by simp [hres])]
        have h256 : ∀ b ∈ s, b < 256 := by
          simp only [goodScalar] at hge
          rw [Bool.and_eq_true] at hge
          have h1 := hge.1
          rw [List.all_eq_true] at h1
          intro b hbm
          simpa using h1 b hbm
        exact decode_encodeRuns s h256 fuel
  | tup es => simp [goodScalar] at hge

/-- Splitting the joined tuple parts on the separator recovers the encoded
elements. -/
theorem splitOnSep_parts :
    ∀ (es : List ColName), es ≠ [] → (∀ e ∈ es, goodScalar e = true) →
    ∀ (fuel : Nat), es.length ≤ fuel →
    splitOnSep fuel (encodeTupleParts es) =
      es.map (encode_col_name true) := by
  intro es
  induction es with
  | nil => intro h; exact absurd rfl h
  | cons e t ih =>
    intro _ hall fuel hfuel
    cases t with
    | nil =>
      rw [encodeTupleParts]
      cases fuel with
      | zero => simp at hfuel
      | succ f =>
        rw [splitOnSep]
        rw [splitFirstPair_none 95 83 _
          (encode_scalar_sep e (hall e (by simp)))]
        simp
    | cons e2 t2 =>
      rw [encodeTupleParts]
      cases fuel with
      | zero => simp at hfuel
      | succ f =>
        rw [splitOnSep]
        have hsp := splitFirstPair_append 95 83 (by omega)
          (encode_col_name true e) (encodeTupleParts (e2 :: t2))
          (encode_scalar_sep e (hall e (by simp)))
        simp only [List.append_assoc, List.cons_append, List.nil_append]
        simp only [hsp]
        have hdrop : List.drop 2 (95 :: 83 :: encodeTupleParts (e2 :: t2)) =
            encodeTupleParts (e2 :: t2) := rfl
        rw [hdrop]
        rw [ih (by simp) (fun x hx => hall x (List.mem_cons_of_mem _ hx)) f
          (by simp only [List.length_cons] at hfuel ⊢; omega)]
        simp

/-- Decoding each encoded element of an admissible tuple recovers the
elements, for any positive fuel. -/
theorem mapM_decode_parts (fuel : Nat) (hf : 1 ≤ fuel) :
    ∀ (es : List ColName), (∀ e ∈ es, goodScalar e = true) →
    (es.map (encode_col_name true)).mapM
      (fun part => decode_col_name fuel part) = some es := by
  obtain ⟨f, rfl⟩ : ∃ f, fuel = f + 1 := ⟨fuel - 1, by omega⟩
  intro es
  induction es with
  | nil => intro _; rfl
  | cons e t ih =>
    intro hall
    rw [List.map_cons, List.mapM_cons]
    rw [decode_scalar e (hall e (by simp)) f]
    rw [ih (fun x hx => hall x (List.mem_cons_of_mem _ hx))]
    rfl

/-- The joined tuple parts are at most one byte shorter than the element
count. -/
theorem encodeTupleParts_length :
    ∀ (es : List ColName), es.length ≤ (encodeTupleParts es).length + 1 := by
  intro es
  induction es with
  | nil => simp
  | cons e t ih =>
    cases t with
    | nil => simp
    | cons e2 t2 =>
      rw [encodeTupleParts]
      simp only [List.length_append, List.length_cons] at ih ⊢
      omega

/-- Decoding dispatch for the _T tag. -/
theorem decode_tup_tag (fuel : Nat) (restAll : List Nat) :
    decode_col_name (fuel + 1) (95 :: 84 :: restAll) =
      Option.map ColName.tup
        ((splitOnSep ((95 :: 84 :: restAll).length + 1) restAll).mapM
          (fun part => decode_col_name fuel part)) := by
  simp only [decode_col_name, isReservedStr_second 84 (by omega)]
  simp

/-- Decoding the encoding of an admissible nonempty tuple recovers it. -/
theorem decode_tup (es : List ColName) (hne : es ≠ [])
    (hall : ∀ e ∈ es, goodScalar e = true) :
    decodeColName (encode_col_name true (.tup es)) = some (.tup es) := by
  rw [decodeColName, encode_col_name]
  simp only [List.cons_append, List.nil_append]
  rw [decode_tup_tag]
  rw [splitOnSep_parts es hne hall
    ((95 :: 84 :: encodeTupleParts es).length + 1)
    (by
      have hl := encodeTupleParts_length es
      simp only [List.length_cons]
      omega)]
  rw [mapM_decode_parts ((95 :: 84 :: encodeTupleParts es).length)
    (by simp) es hall]
  rfl

/-- Every byte of the quoted unit stream is a word byte. -/
theorem quoteChunks_word (bs : List Nat) :
    ∀ b ∈ (quoteChunks bs).1, isWordByte b = true := by
  have key : ∀ (n : Nat) (bs : List Nat), bs.length ≤ n →
      ∀ b ∈ (quoteChunks bs).1, isWordByte b = true := by
    intro n
    induction n with
    | zero =>
      intro bs hlen b hbm
      have hs : bs = [] := List.length_eq_zero.mp (Nat.le_zero.mp hlen)
      subst hs
      simp [quoteChunks] at hbm
    | succ n ihn =>
      intro bs hlen b hbm
      cases bs with
      | nil => simp [quoteChunks] at hbm
      | cons b0 t0 =>
      cases t0 with
      | nil =>
        simp only [quoteChunks] at hbm
        rcases List.mem_append.mp hbm with h | h
        · exact baseEnc_word _ b h
        · exact baseEnc_word _ b h
      | cons b1 t1 =>
      cases t1 with
      | nil =>
        simp only [quoteChunks] at hbm
        rcases List.mem_append.mp hbm with h | h
        · rcases List.mem_append.mp h with h2 | h2
          · exact baseEnc_word _ b h2
          · exact baseEnc_word _ b h2
        · exact baseEnc_word _ b h
      | cons b2 t2 =>
      cases t2 with
      | nil =>
        simp only [quoteChunks] at hbm
        rcases List.mem_append.mp hbm with h | h
        · rcases List.mem_append.mp h with h2 | h2
          · rcases List.mem_append.mp h2 with h3 | h3
            · exact baseEnc_word _ b h3
            · exact baseEnc_word _ b h3
          · exact baseEnc_word _ b h2
        · exact baseEnc_word _ b h
      | cons r rs =>
        simp only [quoteChunks] at hbm
        rcases List.mem_append.mp hbm with h | h
        · rcases List.mem_append.mp h with h2 | h2
          · rcases List.mem_append.mp h2 with h3 | h3
            · rcases List.mem_append.mp h3 with h4 | h4
              · exact baseEnc_word _ b h4
              · exact baseEnc_word _ b h4
            · exact baseEnc_word _ b h3
          · exact baseEnc_word _ b h2
        · exact ihn (r :: rs)
            (by simp only [List.length_cons] at hlen ⊢; omega) b h
  exact key bs.length bs (le_refl _)

/-- Every byte of a quoted run is a word byte. -/
theorem quoteRun_word (q : List Nat) :
    ∀ b ∈ quoteRun q, isWordByte b = true := by
  intro b hbm
  rw [quoteRun] at hbm
  have htc := (quoteChunks_facts q).2.1
  rcases List.mem_append.mp hbm with h | h
  · rcases List.mem_append.mp h with h2 | h2
    · simp at h2
      rcases h2 with h3 | h3 <;> subst h3 <;> decide
    · exact quoteChunks_word q b h2
  · simp at h
    rcases h with h3 | h3
    · subst h3; decide
    · subst h3
      simp [isWordByte, isAlphanumByte]
      omega

/-- Every byte of the run encoding is a word byte. -/
theorem encodeRuns_word (s : List Nat) :
    ∀ b ∈ encodeRuns s, isWordByte b = true := by
  have key : ∀ (n : Nat) (s : List Nat), s.length ≤ n →
      ∀ b ∈ encodeRuns s, isWordByte b = true := by
    intro n
    induction n with
    | zero =>
      intro s hlen b hbm
      have hs : s = [] := List.length_eq_zero.mp (Nat.le_zero.mp hlen)
      subst hs
      simp [encodeRuns] at hbm
    | succ n ihn =>
      intro s hlen b hbm
      cases hS0 : s.dropWhile isAlphanumByte with
      | nil =>
        have halpha : ∀ b ∈ s, isAlphanumByte b = true := by
          rw [List.dropWhile_eq_nil_iff] at hS0
          exact fun c hc => hS0 c hc
        rw [encodeRuns_all_alpha s halpha] at hbm
        simp [isWordByte, halpha b hbm]
      | cons r S0t =>
        have hr : isAlphanumByte r = false := dropWhile_head_not _ _ _ _ hS0
        have hsplit : s.takeWhile isAlphanumByte ++ r :: S0t = s := by
          conv_rhs => rw [← List.takeWhile_append_dropWhile isAlphanumByte s]
          rw [hS0]
        obtain ⟨Q, hQdef⟩ :
            ∃ Q, (r :: S0t).takeWhile (fun c => !isAlphanumByte c) = Q :=
          ⟨_, rfl⟩
        obtain ⟨S, hSdef⟩ :
            ∃ S, (r :: S0t).dropWhile (fun c => !isAlphanumByte c) = S :=
          ⟨_, rfl⟩
        have hQS : Q ++ S = r :: S0t := by
          rw [← hQdef, ← hSdef]
          exact List.takeWhile_append_dropWhile _ _
        have hQne : Q ≠ [] := by
          rw [← hQdef, List.takeWhile_cons_of_pos (by simp [hr])]
          simp
        have hApre : ∀ b ∈ s.takeWhile isAlphanumByte,
            isAlphanumByte b = true := fun c hc => List.mem_takeWhile_imp hc
        have henc : encodeRuns s = s.takeWhile isAlphanumByte ++
            (quoteRun Q ++ encodeRuns S) := by
          conv_lhs => rw [← hsplit]
          rw [encodeRuns_alpha_lead _ _ hApre]
          rw [encodeRuns]
          rw [if_neg (by simp [hr])]
          rw [hQdef, hSdef]
        have hlenS : S.length + 1 ≤ s.length := by
          have h1 := congrArg List.length hsplit
          have h2 := congrArg List.length hQS
          have h3 : 1 ≤ Q.length := List.length_pos.mpr hQne
          simp only [List.length_append, List.length_cons] at h1 h2
          omega
        rw [henc] at hbm
        rcases List.mem_append.mp hbm with h | h
        · simp [isWordByte, hApre b h]
        · rcases List.mem_append.mp h with h2 | h2
          · exact quoteRun_word Q b h2
          · exact ihn S (by omega) b h2
  exact key s.length s (le_refl _)

/-- The textual form of a nonnegative integer is all word bytes. -/
theorem intRepr_word_nonneg (n : Int) (hn : 0 ≤ n) :
    ∀ b ∈ intRepr n, isWordByte b = true := by
  intro b hbm
  rw [intRepr, if_neg (by omega)] at hbm
  have := natDigits_digits _ _ hbm
  simp [isWordByte, isAlphanumByte]
  omega

/-- The encoding of a charset-safe scalar is all word bytes. -/
theorem encode_charset_scalar (e : ColName) (h : charsetScalar e = true) :
    ∀ b ∈ encode_col_name true e, isWordByte b = true := by
  cases e with
  | noneV => intro b hbm; rw [encode_col_name] at hbm; fin_cases hbm <;> decide
  | intV n =>
    intro b hbm
    rw [encode_col_name] at hbm
    rcases List.mem_append.mp hbm with h2 | h2
    · fin_cases h2 <;> decide
    · exact intRepr_word_nonneg n (by simpa [charsetScalar] using h) b h2
  | strV s =>
    intro b hbm
    rw [encode_col_name] at hbm
    by_cases hs : s = []
    · rw [if_pos hs] at hbm
      fin_cases hbm <;> decide
    · rw [if_neg hs] at hbm
      by_cases hres : isReservedStr s = true
      · rw [if_pos (by simp [hres])] at hbm
        simp only [charsetScalar, hres] at h
        simp at h
        have h2 := h b hbm
        simpa using h2
      · rw [if_neg (by simp [hres])] at hbm
        exact encodeRuns_word s b hbm
  | tup es => simp [charsetScalar] at h

/-- The joined parts of a charset-safe tuple are all word bytes. -/
theorem encodeTupleParts_word :
    ∀ (es : List ColName), (∀ e ∈ es, charsetScalar e = true) →
    ∀ b ∈ encodeTupleParts es, isWordByte b = true := by
  intro es
  induction es with
  | nil => intro _ b hbm; simp [encodeTupleParts] at hbm
  | cons e t ih =>
    intro hall b hbm
    cases t with
    | nil =>
      rw [encodeTupleParts] at hbm
      exact encode_charset_scalar e (hall e (by simp)) b hbm
    | cons e2 t2 =>
      rw [encodeTupleParts] at hbm
      rcases List.mem_append.mp hbm with h | h
      · rcases List.mem_append.mp h with h2 | h2
        · exact encode_charset_scalar e (hall e (by simp)) b h2
        · fin_cases h2 <;> decide
      · exact ih (fun x hx => hall x (List.mem_cons_of_mem _ hx)) b h

/-- The encoding of a charset-safe name is all word bytes. -/
theorem encode_charset (e : ColName) (h : charsetSafe e = true) :
    ∀ b ∈ encode_col_name true e, isWordByte b = true := by
  cases e with
  | tup es =>
    intro b hbm
    rw [encode_col_name] at hbm
    simp only [charsetSafe] at h
    rw [List.all_eq_true] at h
    rcases List.mem_append.mp hbm with h2 | h2
    · fin_cases h2 <;> decide
    · exact encodeTupleParts_word es (fun x hx => h x hx) b h2
  | noneV => exact encode_charset_scalar _ (by simpa [charsetSafe] using h)
  | intV n => exact encode_charset_scalar _ (by simpa [charsetSafe] using h)
  | strV s => exact encode_charset_scalar _ (by simpa [charsetSafe] using h)

/-- C10 (amended): for every supported column name in the admissible class
(None, integers, byte strings, and nonempty tuples of these in which a
reserved pass-through string holds no _S separator pair), decoding the
encoding with ignore_reserved = True returns the original name; and for
charset-safe names (nonnegative integers, strings whose reserved
pass-through form is itself alphanumeric-and-underscore, and tuples of
such) the encoded form consists only of alphanumeric and underscore
bytes. -/
theorem encode_decode_col_name (nm : ColName) (h : goodName nm = true) :
    decodeColName (encode_col_name true nm) = some nm ∧
    (charsetSafe nm = true →
      ∀ b ∈ encode_col_name true nm, isWordByte b = true) := by
  refine ⟨?_, fun hcs => encode_charset nm hcs⟩
  cases nm with
  | noneV =>
    rw [decodeColName, encode_col_name]
    exact decode_none_tag _ []
  | intV n =>
    rw [decodeColName, encode_col_name]
    exact decode_int_tag _ n
  | strV s =>
    rw [decodeColName, encode_col_name]
    by_cases hs : s = []
    · rw [if_pos hs, hs]
      exact decode_empty_tag _
    · rw [if_neg hs]
      by_cases hres : isReservedStr s = true
      · rw [if_pos (by simp [hres])]
        exact decode_reserved _ s hres
      · rw [if_neg (by simp [hres])]
        have h256 : ∀ b ∈ s, b < 256 := by
          simp only [goodName] at h
          rw [List.all_eq_true] at h
          intro b hbm
          simpa using h b hbm
        exact decode_encodeRuns s h256 _
  | tup es =>
    have hne : es ≠ [] := by
      intro hc
      subst hc
      simp [goodName] at h
    have hall : ∀ e ∈ es, goodScalar e = true := by
      simp only [goodName] at h
      rw [Bool.and_eq_true] at h
      have h2 := h.2
      rw [List.all_eq_true] at h2
      exact fun e he => h2 e he
    exact decode_tup es hne hall

/-- C10 witness: the tuple of the string a-space-b, the integer -7 and None
is in the admissible class and round-trips through the codec. -/
theorem encode_decode_col_name_witness :
    goodName (.tup [.strV [97, 32, 98], .intV (-7), .noneV]) = true ∧
    decodeColName (encode_col_name true
        (.tup [.strV [97, 32, 98], .intV (-7), .noneV])) =
      some (.tup [.strV [97, 32, 98], .intV (-7), .noneV]) :=
  ⟨by decide, (encode_decode_col_name _ (by decide)).1⟩

/-- C10 counterexample: the integer name -1 is a supported column name, yet
its encoding _I-1 contains the minus-sign byte 45, which is neither
alphanumeric nor the underscore, contradicting the charset conjunct of the
original claim. -/
theorem encode_col_name_minus_cex :
    encode_col_name true (.intV (-1)) = [95, 73, 45, 49] ∧
    isWordByte 45 = false := by
  constructor
  · simp [encode_col_name, intRepr, natDigits]
  · decide

end ModinSpec
